import Mathlib

/-!
Verification of the per-user email ingestion pipeline of the job-tracker
repository (backend/workflow_pipeline).  The Python source is shallowly
embedded: pure functions become Lean functions on `String` / `List Char`,
the database session becomes explicit state passing, exceptions become
`Except`, and the asyncio scheduler becomes a small-step transition system.
All recursions are structural so that every definition evaluates inside the
kernel.
-/

namespace JobTracker

/-! ## Character classes

Python `re` character classes, restricted to the ASCII range plus the
non-breaking space (all concrete inputs used below are ASCII).
`\s` is space, tab, newline, carriage return, vertical tab, form feed
(plus U+00A0 for `str` patterns); `\w` is letters, digits and underscore. -/

/-- Characters matched by `\s` (and stripped by `str.strip()`). -/
def isSpaceChar (c : Char) : Bool :=
  c = ' ' || c = '\t' || c = '\n' || c = '\r' || c = Char.ofNat 11 || c = Char.ofNat 12 ||
    c = Char.ofNat 160

/-- Characters matched by `\w`. -/
def isWordChar (c : Char) : Bool :=
  c.isAlpha || c.isDigit || c = '_'

/-- The apostrophe character. -/
def apos : Char := Char.ofNat 39

/-- The backquote character. -/
def backquote : Char := Char.ofNat 96

/-- Punctuation kept by the special-character cleaning pattern
`(?<!\w)[^\w\s,.!?:;()\[\]"\x27\x60](?!\w)` in `CLEANING_CONFIG` of
workflow_pipeline/emails.py. -/
def keptPunct (c : Char) : Bool :=
  c = ',' || c = '.' || c = '!' || c = '?' || c = ':' || c = ';' || c = '(' || c = ')' ||
    c = '[' || c = ']' || c = '"' || c = apos || c = backquote

/-! ## Whitespace handling -/

/-- Scanner for `re.sub(r'\s+', ' ', text)`; the flag records whether the
previous character belonged to a whitespace run already emitted as one
space. -/
def collapseGo (prevSpace : Bool) : List Char → List Char
  | [] => []
  | c :: cs =>
    if isSpaceChar c then
      if prevSpace then collapseGo true cs else ' ' :: collapseGo true cs
    else c :: collapseGo false cs

/-- Embedding of `re.sub(r'\s+', ' ', text)`: every maximal run of
whitespace characters is replaced by a single space. -/
def collapseWs (l : List Char) : List Char :=
  collapseGo false l

/-- Embedding of `str.strip()`: drop whitespace from both ends. -/
def stripChars (l : List Char) : List Char :=
  ((l.dropWhile isSpaceChar).reverse.dropWhile isSpaceChar).reverse

/-! ## HTML entities

Embedding of `html.unescape`, restricted to the named and numeric entities
relevant to this development; `&nbsp;` decodes to U+00A0.  A character that
does not open a recognised entity is kept unchanged. -/

/-- Recognise an entity body right after an ampersand; returns the decoded
character and the number of input characters consumed. -/
def entityAt : List Char → Option (Char × Nat)
  | 'a' :: 'm' :: 'p' :: ';' :: _ => some ('&', 4)
  | 'l' :: 't' :: ';' :: _ => some ('<', 3)
  | 'g' :: 't' :: ';' :: _ => some ('>', 3)
  | 'q' :: 'u' :: 'o' :: 't' :: ';' :: _ => some ('"', 5)
  | 'n' :: 'b' :: 's' :: 'p' :: ';' :: _ => some (Char.ofNat 160, 5)
  | '#' :: '3' :: '9' :: ';' :: _ => some (apos, 4)
  | _ => none

/-- Decoding loop; the fuel argument only bounds the recursion depth (each
step consumes at least one character, so fuel equal to the input length is
always enough) and keeps the recursion structural. -/
def decodeFuel : Nat → List Char → List Char
  | 0, l => l
  | _ + 1, [] => []
  | fuel + 1, c :: cs =>
    if c = '&' then
      match entityAt cs with
      | some (d, k) => d :: decodeFuel fuel (cs.drop k)
      | none => '&' :: decodeFuel fuel cs
    else c :: decodeFuel fuel cs

/-- Decode HTML entities left to right in a single pass. -/
def decodeEntities (l : List Char) : List Char :=
  decodeFuel l.length l

/-! ## BeautifulSoup phase

Lines 93-106 of workflow_pipeline/emails.py parse the content with
BeautifulSoup, replace each hyperlink element by its visible text plus a
space, decompose script/style/head/meta/link/img/button elements, and call
`get_text(separator=" ")` followed by `unescape`.  The model below
tokenises the input into text runs and tags, drops the contents of the
decomposed container elements, and renders every remaining tag as a single
space.  This is whitespace-equivalent to the library behaviour (the
separator, the space appended after link text, and the removed tags all
turn into whitespace, which the later `\s+` collapse normalises); link
contents are modelled as flat text.  Entities inside text nodes are decoded
at parse time, as the parser does. -/

/-- Token of the simplified HTML scanner: a raw text run or a tag with a
lower-cased name and a closing flag. -/
inductive HtmlTok where
  | text : List Char → HtmlTok
  | tag : List Char → Bool → HtmlTok
deriving DecidableEq, Repr

/-- Prepend a character to the leading text token. -/
def consText (c : Char) : List HtmlTok → List HtmlTok
  | HtmlTok.text s :: ts => HtmlTok.text (c :: s) :: ts
  | ts => HtmlTok.text [c] :: ts

/-- Lower-cased element name of the contents of a tag (the letters before
any attribute list, after a leading slash for closing tags). -/
def tagNameOf (inner : List Char) : List Char :=
  let core := if inner.head? = some '/' then inner.tail else inner
  (core.takeWhile (fun c => c.isAlpha)).map Char.toLower

/-- Whether the tag contents denote a closing tag. -/
def tagClosing (inner : List Char) : Bool :=
  inner.head? = some '/'

/-- Scanner state: `none` outside a tag, `some acc` inside a tag whose
contents so far are `acc` reversed.  A `<` that is never closed by a `>`
is kept as literal text. -/
def tokenizeGo : Option (List Char) → List Char → List HtmlTok
  | none, [] => []
  | none, c :: cs => if c = '<' then tokenizeGo (some []) cs else consText c (tokenizeGo none cs)
  | some acc, [] => [HtmlTok.text ('<' :: acc.reverse)]
  | some acc, c :: cs =>
    if c = '>' then
      HtmlTok.tag (tagNameOf acc.reverse) (tagClosing acc.reverse) :: tokenizeGo none cs
    else tokenizeGo (some (c :: acc)) cs

/-- Scan the input into text runs and tags. -/
def tokenize (l : List Char) : List HtmlTok :=
  tokenizeGo none l

/-- Container elements whose whole contents are removed by the
`decompose` loop (script, style, head, button); the void elements meta,
link and img carry no contents of their own. -/
def isSkipContainer (n : List Char) : Bool :=
  n = ['s', 'c', 'r', 'i', 'p', 't'] || n = ['s', 't', 'y', 'l', 'e'] ||
    n = ['h', 'e', 'a', 'd'] || n = ['b', 'u', 't', 't', 'o', 'n']

/-- Render the token stream: text runs are kept, decomposed elements are
dropped with their contents (the mode `some n` skips until the closing tag
of `n`), every other tag becomes one space. -/
def soupGo : Option (List Char) → List HtmlTok → List Char
  | _, [] => []
  | some n, HtmlTok.tag m true :: ts => if m = n then soupGo none ts else soupGo (some n) ts
  | some n, HtmlTok.tag _ false :: ts => soupGo (some n) ts
  | some n, HtmlTok.text _ :: ts => soupGo (some n) ts
  | none, HtmlTok.text s :: ts => s ++ soupGo none ts
  | none, HtmlTok.tag n closing :: ts =>
    if closing = false && isSkipContainer n then ' ' :: soupGo (some n) ts
    else ' ' :: soupGo none ts

/-- The whole BeautifulSoup phase up to `get_text`. -/
def soupExtract (ts : List HtmlTok) : List Char :=
  soupGo none ts

/-! ## The cleaning patterns of CLEANING_CONFIG -/

/-- Whether the next four characters spell http, case-insensitively. -/
def isHttp4 (c1 c2 c3 c4 : Char) : Bool :=
  c1.toLower = 'h' && c2.toLower = 't' && c3.toLower = 't' && c4.toLower = 'p'

mutual

/-- Embedding of `re.sub(r'http\S+', ' ', text, flags=IGNORECASE)`: at the
leftmost occurrence of `http` followed by a non-space, the match extends
greedily through the maximal non-space run and is replaced by one space;
scanning resumes after the match. -/
def subUrl : List Char → List Char
  | c1 :: c2 :: c3 :: c4 :: c5 :: rest =>
    if isHttp4 c1 c2 c3 c4 && !isSpaceChar c5 then ' ' :: urlSkip rest
    else c1 :: subUrl (c2 :: c3 :: c4 :: c5 :: rest)
  | c :: cs => c :: subUrl cs
  | [] => []

/-- Consume the remainder of the non-space run matched by `http\S+`. -/
def urlSkip : List Char → List Char
  | [] => []
  | c :: cs => if isSpaceChar c then c :: subUrl cs else urlSkip cs

end

/-- Condition under which `re.sub(r'\S+@\S+', ' ', text)` matches at the
head of the maximal non-space run `r`: the run must contain an `@` that is
neither its first nor its last character (the first `\S+` needs at least
one character before the `@` and the second at least one after it). -/
def runHasEmail (r : List Char) : Bool :=
  r.tail.dropLast.contains '@'

mutual

/-- Embedding of `re.sub(r'\S+@\S+', ' ', text)`: a maximal non-space run
with an internal `@` is matched in full (greedy `\S+` on both sides) and
replaced by one space; other characters are kept and scanning advances by
one. -/
def subEmail : List Char → List Char
  | [] => []
  | c :: cs =>
    if isSpaceChar c then c :: subEmail cs
    else
      if runHasEmail ((c :: cs).takeWhile (fun d => !isSpaceChar d)) then ' ' :: emailSkip cs
      else c :: subEmail cs

/-- Consume the remainder of the non-space run matched by `\S+@\S+`. -/
def emailSkip : List Char → List Char
  | [] => []
  | c :: cs => if isSpaceChar c then c :: subEmail cs else emailSkip cs

end

/-- One step of the special-character pattern
`(?<!\w)[^\w\s,.!?:;()\[\]"\x27\x60](?!\w)`: `prev` is the original
character preceding the scan position (lookarounds read the original
string; every match is a single character, so replacements never overlap).
-/
def specialHit (prev : Option Char) (c : Char) (next : Option Char) : Bool :=
  !isWordChar c && !isSpaceChar c && !keptPunct c &&
    (match prev with
     | some p => !isWordChar p
     | none => true) &&
    (match next with
     | some n => !isWordChar n
     | none => true)

/-- Scanner for the special-character substitution. -/
def specialCore (prev : Option Char) : List Char → List Char
  | [] => []
  | c :: cs =>
    (if specialHit prev c cs.head? then ' ' else c) :: specialCore (some c) cs

/-- Embedding of the third cleaning pattern of `CLEANING_CONFIG`. -/
def subSpecial (l : List Char) : List Char :=
  specialCore none l

/-! ## clean_html_content -/

/-- Truncation limit from `CLEANING_CONFIG["truncate_length"]`. -/
def truncateLength : Nat := 1000

/-- Core of `clean_html_content` on character lists: BeautifulSoup phase
(with entity decoding at parse time), `unescape`, the four cleaning
patterns applied in configuration order (URL, email address, special
character, whitespace), then the final whitespace collapse, strip and
truncation. -/
def cleanList (l : List Char) : List Char :=
  let t1 := decodeEntities (soupExtract (tokenize l))
  let t2 := decodeEntities t1
  let t3 := collapseWs (subSpecial (subEmail (subUrl t2)))
  (stripChars (collapseWs t3)).take truncateLength

/-- Embedding of `clean_html_content` from workflow_pipeline/emails.py
lines 89-114.  An empty input returns the empty string at once. -/
def clean_html_content (s : String) : String :=
  if s.data = [] then "" else String.mk (cleanList s.data)

example : clean_html_content "hello" = "hello" := by decide
example : clean_html_content "  a   b  " = "a b" := by decide
example : clean_html_content "<b>x</b> * y" = "x y" := by decide
example : clean_html_content "see http://x.y now" = "see now" := by decide
example : clean_html_content "mail a@b.c here" = "mail here" := by decide
example : clean_html_content "<script>bad()</script>ok" = "ok" := by decide
example : clean_html_content "a &amp; b" = "a b" := by decide

/-! ## Fixed-point lemmas for the cleaning stages

These identify syntactic classes of strings on which each stage of
`clean_html_content` is the identity; they drive both the idempotence
analysis and the symbolic evaluation of large inputs. -/

/-- Rendering a singleton text token recovers the text. -/
theorem soupGo_consText (c : Char) (ts : List HtmlTok) :
    soupGo none (consText c ts) = c :: soupGo none ts := by
  match ts with
  | [] => rfl
  | HtmlTok.text s :: ts2 => rfl
  | HtmlTok.tag n b :: ts2 =>
    show soupGo none (HtmlTok.text [c] :: HtmlTok.tag n b :: ts2) = _
    rw [soupGo]
    rfl

/-- Without a tag opener the BeautifulSoup phase returns the text intact. -/
theorem soup_tokenize_id (l : List Char) (h : '<' ∉ l) :
    soupExtract (tokenize l) = l := by
  show soupGo none (tokenizeGo none l) = l
  induction l with
  | nil => rfl
  | cons c cs ih =>
    have hc : ¬(c = '<') := fun e => h (by simp [e])
    have hcs : '<' ∉ cs := fun m => h (List.mem_cons_of_mem _ m)
    rw [tokenizeGo, if_neg hc, soupGo_consText, ih hcs]

/-- Without an ampersand entity decoding is the identity, for any fuel. -/
theorem decodeFuel_id (fuel : Nat) : ∀ l : List Char, '&' ∉ l → decodeFuel fuel l = l := by
  induction fuel with
  | zero => intro l _; rfl
  | succ fuel ih =>
    intro l h
    match l with
    | [] => rfl
    | c :: cs =>
      have hc : ¬(c = '&') := fun e => h (by simp [e])
      have hcs : '&' ∉ cs := fun m => h (List.mem_cons_of_mem _ m)
      rw [decodeFuel, if_neg hc, ih cs hcs]

/-- Without an ampersand `decodeEntities` is the identity. -/
theorem decodeEntities_id (l : List Char) (h : '&' ∉ l) : decodeEntities l = l :=
  decodeFuel_id l.length l h

/-- Scanning predicate mirroring `subUrl`: no position starts a match of
`http\S+`. -/
def urlFree : List Char → Bool
  | c1 :: c2 :: c3 :: c4 :: c5 :: rest =>
    !(isHttp4 c1 c2 c3 c4 && !isSpaceChar c5) && urlFree (c2 :: c3 :: c4 :: c5 :: rest)
  | _ => true

/-- A url-free string is a fixed point of the URL substitution. -/
theorem subUrl_id : ∀ l : List Char, urlFree l = true → subUrl l = l := by
  refine subUrl.induct (fun l => urlFree l = true → subUrl l = l) (fun _ => True)
    ?_ ?_ ?_ ?_ trivial ?_ ?_
  · intro c1 c2 c3 c4 c5 rest hcond _ h
    rw [urlFree] at h
    simp [hcond] at h
  · intro c1 c2 c3 c4 c5 rest hcond ih h
    rw [urlFree] at h
    simp only [Bool.and_eq_true] at h
    rw [subUrl, if_neg hcond, ih h.2]
  · intro c cs hshort ih h
    have hcs : urlFree cs = true := by
      match cs, hshort with
      | [], _ => rfl
      | [d1], _ => rfl
      | [d1, d2], _ => rfl
      | [d1, d2, d3], _ => rfl
      | d1 :: d2 :: d3 :: d4 :: ds, hs => exact absurd rfl (hs d1 d2 d3 d4 ds)
    have hstep : subUrl (c :: cs) = c :: subUrl cs := by
      match cs, hshort with
      | [], _ => rfl
      | [d1], _ => rfl
      | [d1, d2], _ => rfl
      | [d1, d2, d3], _ => rfl
      | d1 :: d2 :: d3 :: d4 :: ds, hs => exact absurd rfl (hs d1 d2 d3 d4 ds)
    rw [hstep, ih hcs]
  · intro _; rfl
  · intro _ _ _ _; trivial
  · intro _ _ _ _; trivial

/-- A string without `http` followed by a non-space is url-free whenever it
contains no letter h at all. -/
theorem urlFree_of_no_h : ∀ l : List Char, (∀ c ∈ l, c.toLower ≠ 'h') → urlFree l = true := by
  intro l
  induction l with
  | nil => intro _; rfl
  | cons c cs ih =>
    intro h
    have hcs := fun d hd => h d (List.mem_cons_of_mem _ hd)
    match cs with
    | [] => rfl
    | [d1] => rfl
    | [d1, d2] => rfl
    | [d1, d2, d3] => rfl
    | d1 :: d2 :: d3 :: d4 :: ds =>
      rw [urlFree]
      have hc : c.toLower ≠ 'h' := h c (List.mem_cons_self c _)
      have hhttp : isHttp4 c d1 d2 d3 = false := by
        rw [isHttp4]
        simp only [Bool.and_eq_false_iff]
        left; left; left
        exact decide_eq_false hc
      rw [hhttp]
      simp only [Bool.false_and, Bool.not_false, Bool.true_and]
      exact ih hcs

/-- Scanning predicate mirroring `subEmail`: no non-space run has an
internal ampersat. -/
def emailFree : List Char → Bool
  | [] => true
  | c :: cs =>
    if isSpaceChar c then emailFree cs
    else !runHasEmail ((c :: cs).takeWhile (fun d => !isSpaceChar d)) && emailFree cs

/-- An email-free string is a fixed point of the email substitution. -/
theorem subEmail_id : ∀ l : List Char, emailFree l = true → subEmail l = l := by
  refine subEmail.induct (fun l => emailFree l = true → subEmail l = l) (fun _ => True)
    ?_ ?_ ?_ ?_ trivial ?_ ?_
  · intro _; rfl
  · intro c cs hsp ih h
    rw [emailFree, if_pos hsp] at h
    rw [subEmail, if_pos hsp, ih h]
  · intro c cs hsp hrun _ h
    rw [emailFree, if_neg hsp, hrun] at h
    simp at h
  · intro c cs hsp hrun ih h
    rw [emailFree, if_neg hsp] at h
    simp only [Bool.and_eq_true] at h
    rw [subEmail, if_neg hsp, if_neg (by simp [hrun]), ih h.2]
  · intro _ _ _ _; trivial
  · intro _ _ _ _; trivial

/-- Membership is preserved from `takeWhile` back to the whole list. -/
theorem mem_of_mem_takeWhileP {p : Char → Bool} {a : Char} :
    ∀ {l : List Char}, a ∈ l.takeWhile p → a ∈ l := by
  intro l
  induction l with
  | nil => intro h; simp [List.takeWhile] at h
  | cons c cs ih =>
    intro h
    rw [List.takeWhile_cons] at h
    by_cases hp : p c = true
    · rw [if_pos hp] at h
      rcases List.mem_cons.1 h with h1 | h1
      · exact h1 ▸ List.mem_cons_self c cs
      · exact List.mem_cons_of_mem _ (ih h1)
    · rw [if_neg hp] at h
      simp at h

/-- A string with no ampersat at all is email-free. -/
theorem emailFree_of_no_at : ∀ l : List Char, '@' ∉ l → emailFree l = true := by
  intro l
  induction l with
  | nil => intro _; rfl
  | cons c cs ih =>
    intro h
    have hcs : '@' ∉ cs := fun m => h (List.mem_cons_of_mem _ m)
    rw [emailFree]
    by_cases hsp : isSpaceChar c = true
    · rw [if_pos hsp]; exact ih hcs
    · rw [if_neg hsp]
      have hrun : runHasEmail ((c :: cs).takeWhile (fun d => !isSpaceChar d)) = false := by
        rw [runHasEmail]
        by_contra hcon
        rw [Bool.not_eq_false] at hcon
        have hmem := List.mem_of_elem_eq_true hcon
        have h1 : '@' ∈ (c :: cs).takeWhile (fun d => !isSpaceChar d) :=
          List.mem_of_mem_tail (List.mem_of_mem_dropLast hmem)
        have h2 : '@' ∈ c :: cs := mem_of_mem_takeWhileP h1
        rcases List.mem_cons.1 h2 with h3 | h3
        · exact h (List.mem_cons.2 (Or.inl h3))
        · exact hcs h3
      rw [hrun]
      simp only [Bool.not_false, Bool.true_and]
      exact ih hcs

/-- Scanning predicate mirroring `specialCore`: no position is hit by the
special-character pattern. -/
def specialFree (prev : Option Char) : List Char → Bool
  | [] => true
  | c :: cs => !specialHit prev c cs.head? && specialFree (some c) cs

/-- A special-free string is a fixed point of the special-character
substitution. -/
theorem specialCore_id : ∀ (l : List Char) (prev : Option Char),
    specialFree prev l = true → specialCore prev l = l := by
  intro l
  induction l with
  | nil => intro _ _; rfl
  | cons c cs ih =>
    intro prev h
    rw [specialFree] at h
    simp only [Bool.and_eq_true, Bool.not_eq_true'] at h
    rw [specialCore, h.1]
    simp only [Bool.false_eq_true, if_false]
    rw [ih (some c) h.2]

/-- Word characters and plain spaces are never hit by the
special-character pattern. -/
theorem specialFree_of_tame : ∀ (l : List Char) (prev : Option Char),
    (∀ c ∈ l, isWordChar c = true ∨ c = ' ') → specialFree prev l = true := by
  intro l
  induction l with
  | nil => intro _ _; rfl
  | cons c cs ih =>
    intro prev h
    rw [specialFree]
    have hc : specialHit prev c cs.head? = false := by
      rcases h c (List.mem_cons_self c _) with hw | hsp
      · simp [specialHit.eq_def, hw]
      · subst hsp
        rfl
    rw [hc]
    simp only [Bool.not_false, Bool.true_and]
    exact ih (some c) (fun d hd => h d (List.mem_cons_of_mem _ hd))

/-- Scanning predicate mirroring `collapseGo`: all whitespace is the plain
space character and no space follows a space (nor starts the string when
the flag is set). -/
def wsNormal (prevSpace : Bool) : List Char → Bool
  | [] => true
  | c :: cs =>
    if isSpaceChar c then (c = ' ') && !prevSpace && wsNormal true cs
    else wsNormal false cs

/-- A whitespace-normal string is a fixed point of whitespace collapsing. -/
theorem collapseGo_id : ∀ (l : List Char) (b : Bool),
    wsNormal b l = true → collapseGo b l = l := by
  intro l
  induction l with
  | nil => intro _ _; rfl
  | cons c cs ih =>
    intro b h
    rw [wsNormal] at h
    by_cases hsp : isSpaceChar c = true
    · rw [if_pos hsp] at h
      simp only [Bool.and_eq_true, Bool.not_eq_true', decide_eq_true_eq] at h
      rw [collapseGo, if_pos hsp, h.1.2]
      simp only [Bool.false_eq_true, if_false]
      rw [h.1.1, ih true h.2]
    · rw [if_neg hsp] at h
      rw [collapseGo, if_neg hsp, ih false h]

/-- A whitespace-normal string is a fixed point of `collapseWs`. -/
theorem collapseWs_id (l : List Char) (h : wsNormal false l = true) : collapseWs l = l :=
  collapseGo_id l false h

/-- Strings that neither start nor end with whitespace are fixed points of
`str.strip()`. -/
theorem stripChars_id (l : List Char)
    (h1 : ∀ c, l.head? = some c → isSpaceChar c = false)
    (h2 : ∀ c, l.getLast? = some c → isSpaceChar c = false) :
    stripChars l = l := by
  rw [stripChars]
  have e1 : l.dropWhile isSpaceChar = l := by
    match l with
    | [] => rfl
    | c :: cs => exact List.dropWhile_cons_of_neg (by simp [h1 c rfl])
  rw [e1]
  have e2 : l.reverse.dropWhile isSpaceChar = l.reverse := by
    match hrev : l.reverse with
    | [] => rfl
    | c :: cs =>
      have hc : l.getLast? = some c := by
        rw [← List.head?_reverse, hrev]
        rfl
      exact List.dropWhile_cons_of_neg (by simp [h2 c hc])
  rw [e2, List.reverse_reverse]

/-! ## Idempotence analysis of clean_html_content (claim C5) -/

/-- Combined syntactic conditions under which every stage before the final
strip-and-truncate is the identity. -/
def tameList (l : List Char) : Prop :=
  '<' ∉ l ∧ '&' ∉ l ∧ urlFree l = true ∧ emailFree l = true ∧
    specialFree none l = true ∧ wsNormal false l = true

/-- On a tame string the whole pipeline before strip is the identity. -/
theorem collapsePhase_id (l : List Char) (h : tameList l) :
    collapseWs (subSpecial (subEmail (subUrl
      (decodeEntities (decodeEntities (soupExtract (tokenize l))))))) = l := by
  obtain ⟨h1, h2, h3, h4, h5, h6⟩ := h
  rw [soup_tokenize_id l h1, decodeEntities_id l h2, decodeEntities_id l h2,
    subUrl_id l h3, subEmail_id l h4]
  show collapseWs (specialCore none l) = l
  rw [specialCore_id l none h5, collapseWs_id l h6]

/-- On a tame string `cleanList` reduces to strip-and-truncate. -/
theorem cleanList_eq_of_tame (l : List Char) (h : tameList l) :
    cleanList l = (stripChars (collapseWs l)).take truncateLength := by
  show (stripChars (collapseWs (collapseWs (subSpecial (subEmail (subUrl
      (decodeEntities (decodeEntities (soupExtract (tokenize l)))))))))).take truncateLength = _
  rw [collapsePhase_id l h]

/-- Decidable stability predicate: the cleaned form neither re-triggers
any cleaning stage nor reaches the truncation limit boundary effects. -/
def cleanStable (s : String) : Bool :=
  !(s.data.contains '<') && !(s.data.contains '&') && urlFree s.data && emailFree s.data &&
    specialFree none s.data && wsNormal false s.data &&
    (match s.data.head? with
     | some c => !isSpaceChar c
     | none => true) &&
    (match s.data.getLast? with
     | some c => !isSpaceChar c
     | none => true) &&
    decide (s.data.length ≤ truncateLength)

/-- A `cleanStable` string is a fixed point of `cleanList`. -/
theorem cleanList_id_of_stable (s : String) (h : cleanStable s = true) :
    cleanList s.data = s.data := by
  rw [cleanStable] at h
  simp only [Bool.and_eq_true, Bool.not_eq_true', decide_eq_true_eq] at h
  obtain ⟨⟨⟨⟨⟨⟨⟨⟨hlt, hamp⟩, hurl⟩, hmail⟩, hspec⟩, hws⟩, hhead⟩, hlast⟩, hlen⟩ := h
  have hlt2 : '<' ∉ s.data := fun hm => by
    rw [List.contains, List.elem_eq_true_of_mem hm] at hlt
    exact Bool.noConfusion hlt
  have hamp2 : '&' ∉ s.data := fun hm => by
    rw [List.contains, List.elem_eq_true_of_mem hm] at hamp
    exact Bool.noConfusion hamp
  rw [cleanList_eq_of_tame s.data ⟨hlt2, hamp2, hurl, hmail, hspec, hws⟩, collapseWs_id _ hws,
    stripChars_id s.data ?_ ?_, List.take_of_length_le hlen]
  · intro c hc
    rw [hc] at hhead
    simpa using hhead
  · intro c hc
    rw [hc] at hlast
    simpa using hlast

/-- C5 (amended): the normaliser is idempotent on every input whose
cleaned form is stable: no markup or entity characters, no trigger of the
URL, email or special-character patterns, single plain spaces with
non-space ends, and within the truncation limit. -/
theorem clean_idempotent_of_stable (s : String)
    (h : cleanStable (clean_html_content s) = true) :
    clean_html_content (clean_html_content s) = clean_html_content s := by
  rw [clean_html_content]
  by_cases he : (clean_html_content s).data = []
  · rw [if_pos he]
    have h0 : clean_html_content s = "" := by
      apply String.ext
      rw [he]
    rw [h0]
  · rw [if_neg he, cleanList_id_of_stable _ h]

/-! ## A cleaned form at the truncation limit breaks idempotence

The input below cleans to 999 letters followed by one space (the
truncation at 1000 characters cuts just after a space); the second pass
strips that trailing space, so cleaning twice differs from cleaning once.
-/

/-- A run of 999 letters a. -/
def a999 : List Char := List.replicate 999 'a'

/-- The cleaned form of the counterexample input: `a999` plus a space. -/
def y5list : List Char := a999 ++ [' ']

/-- Counterexample input characters: 999 letters a, a space, two b. -/
def x5list : List Char := y5list ++ ['b', 'b']

/-- Counterexample input string. -/
def x5str : String := String.mk x5list

/-- Character inventory of the counterexample input. -/
theorem x5_chars : ∀ c ∈ x5list, c = 'a' ∨ c = ' ' ∨ c = 'b' := by
  intro c hc
  rw [x5list, y5list, a999] at hc
  rcases List.mem_append.1 hc with h1 | h1
  · rcases List.mem_append.1 h1 with h2 | h2
    · exact Or.inl (List.eq_of_mem_replicate h2)
    · rcases List.mem_singleton.1 h2 with h3
      exact Or.inr (Or.inl h3)
  · rcases List.mem_cons.1 h1 with h2 | h2
    · exact Or.inr (Or.inr h2)
    · rcases List.mem_singleton.1 h2 with h3
      exact Or.inr (Or.inr h3)

/-- Leading letters keep whitespace normality questions in the tail. -/
theorem wsNormal_replicate_a : ∀ (n : Nat) (rest : List Char),
    wsNormal false (List.replicate n 'a' ++ rest) = wsNormal false rest := by
  intro n
  induction n with
  | zero => intro rest; rfl
  | succ n ih =>
    intro rest
    rw [List.replicate_succ, List.cons_append, wsNormal,
      if_neg (by decide : ¬(isSpaceChar 'a' = true)), ih]

/-- Dropping leading whitespace does nothing after a leading letter. -/
theorem dropWhile_replicate_a (n : Nat) (rest : List Char) (hn : n ≠ 0) :
    (List.replicate n 'a' ++ rest).dropWhile isSpaceChar = List.replicate n 'a' ++ rest := by
  match n, hn with
  | m + 1, _ =>
    rw [List.replicate_succ, List.cons_append]
    exact List.dropWhile_cons_of_neg (by decide)

/-- Tameness of a list of letters a and b with single spaces, given
whitespace normality. -/
theorem tame_of_ab_space (l : List Char) (hchar : ∀ c ∈ l, c = 'a' ∨ c = ' ' ∨ c = 'b')
    (hws : wsNormal false l = true) : tameList l := by
  refine ⟨?_, ?_, ?_, ?_, ?_, hws⟩
  · intro hm
    rcases hchar '<' hm with h | h | h <;> exact absurd h (by decide)
  · intro hm
    rcases hchar '&' hm with h | h | h <;> exact absurd h (by decide)
  · refine urlFree_of_no_h l ?_
    intro c hc
    rcases hchar c hc with h | h | h <;> rw [h] <;> decide
  · refine emailFree_of_no_at l ?_
    intro hm
    rcases hchar '@' hm with h | h | h <;> exact absurd h (by decide)
  · refine specialFree_of_tame l none ?_
    intro c hc
    rcases hchar c hc with h | h | h <;> rw [h] <;> decide

/-- The first cleaning pass sends the counterexample input to `y5list`. -/
theorem cleanList_x5 : cleanList x5list = y5list := by
  have hchar := x5_chars
  have hws : wsNormal false x5list = true := by
    rw [x5list, y5list, a999, List.append_assoc, wsNormal_replicate_a]
    decide
  have htame : tameList x5list := by
    refine tame_of_ab_space x5list ?_ hws
    intro c hc
    exact hchar c hc
  rw [cleanList_eq_of_tame x5list htame, collapseWs_id _ hws]
  have hstrip : stripChars x5list = x5list := by
    refine stripChars_id x5list ?_ ?_
    · intro c hc
      rw [x5list, y5list, a999, List.append_assoc] at hc
      rw [show (999 : Nat) = 998 + 1 from rfl, List.replicate_succ, List.cons_append,
        List.head?_cons] at hc
      cases hc
      decide
    · intro c hc
      rw [x5list, List.getLast?_append_of_ne_nil _ (by decide : (['b', 'b'] : List Char) ≠ [])] at hc
      rw [show (['b', 'b'] : List Char).getLast? = some 'b' from rfl] at hc
      cases hc
      decide
  rw [hstrip, x5list, List.take_append_eq_append_take,
    List.take_of_length_le
      (by rw [y5list, a999, List.length_append, List.length_replicate]; decide),
    show y5list.length = 1000 from
      by rw [y5list, a999, List.length_append, List.length_replicate]; decide]
  show y5list ++ List.take (truncateLength - 1000) ['b', 'b'] = y5list
  rw [show truncateLength - 1000 = 0 from rfl, List.take_zero, List.append_nil]

/-- The second cleaning pass strips the trailing space of `y5list`. -/
theorem cleanList_y5 : cleanList y5list = a999 := by
  have hws : wsNormal false y5list = true := by
    rw [y5list, a999, wsNormal_replicate_a]
    decide
  have htame : tameList y5list := by
    refine tame_of_ab_space y5list ?_ hws
    intro c hc
    have : c ∈ x5list := by
      rw [x5list]
      exact List.mem_append.2 (Or.inl hc)
    exact x5_chars c this
  rw [cleanList_eq_of_tame y5list htame, collapseWs_id _ hws]
  have hstrip : stripChars y5list = a999 := by
    rw [stripChars, y5list, a999, dropWhile_replicate_a 999 [' '] (by decide),
      List.reverse_append, List.reverse_replicate]
    show ((' ' :: List.replicate 999 'a').dropWhile isSpaceChar).reverse = _
    rw [List.dropWhile_cons_of_pos (by decide)]
    have h0 := dropWhile_replicate_a 999 [] (by decide)
    rw [List.append_nil] at h0
    rw [h0, List.reverse_replicate]
  rw [hstrip]
  exact List.take_of_length_le (by rw [a999, List.length_replicate]; decide)

/-- The counterexample input is nonempty. -/
theorem x5list_ne_nil : x5list ≠ [] := by
  rw [x5list, y5list, a999]
  intro h
  have h2 := congrArg List.length h
  rw [List.length_append, List.length_append, List.length_replicate] at h2
  exact absurd h2 (by decide)

/-- The once-cleaned counterexample is nonempty. -/
theorem y5list_ne_nil : y5list ≠ [] := by
  rw [y5list, a999]
  intro h
  have h2 := congrArg List.length h
  rw [List.length_append, List.length_replicate] at h2
  exact absurd h2 (by decide)

/-- C5: the claim that `clean_html_content` is idempotent on every input,
including inputs whose cleaned form reaches the 1000-character truncation
limit, is false: this input cleans to exactly 1000 characters ending in a
space, and a second pass strips that space. -/
theorem c5_counterexample :
    (clean_html_content x5str).data.length = truncateLength ∧
      clean_html_content (clean_html_content x5str) ≠ clean_html_content x5str := by
  have hx : clean_html_content x5str = String.mk y5list := by
    rw [clean_html_content, if_neg (by exact x5list_ne_nil)]
    show String.mk (cleanList x5list) = _
    rw [cleanList_x5]
  have hy : clean_html_content (String.mk y5list) = String.mk a999 := by
    rw [clean_html_content, if_neg (by exact y5list_ne_nil)]
    show String.mk (cleanList y5list) = _
    rw [cleanList_y5]
  refine ⟨?_, ?_⟩
  · rw [hx]
    show y5list.length = truncateLength
    rw [y5list, a999, List.length_append, List.length_replicate]
    decide
  · rw [hx, hy]
    intro h
    have hd : a999 = y5list := congrArg String.data h
    have h2 := congrArg List.length hd
    rw [y5list, List.length_append, a999, List.length_replicate] at h2
    exact absurd h2 (by decide)

/-- C5 witness input for the stable case. -/
theorem clean_idempotent_of_stable_witness :
    cleanStable (clean_html_content "Hello, world.") = true ∧
      clean_html_content (clean_html_content "Hello, world.") =
        clean_html_content "Hello, world." :=
  ⟨by decide, clean_idempotent_of_stable "Hello, world." (by decide)⟩

/-! ## MIME part tree and extract_body_from_parts

A part carries a mime type, an optional decoded body (the code reads
`part["body"]["data"]`, base64url-decodes it and skips the part when the
field is missing, empty or undecodable — `none` models all those cases,
`some s` a successful decode), and nested sub-parts. -/

/-- Node of the Gmail payload part tree. -/
inductive MimePart where
  | node : String → Option String → List MimePart → MimePart

/-- Texts contributed by one part itself, split into plain and html. -/
def partTexts (mt : String) (d : Option String) : List String × List String :=
  match d with
  | some s =>
    if mt = "text/plain" then ([s], [])
    else if mt = "text/html" then ([], [s])
    else ([], [])
  | none => ([], [])

mutual

/-- Depth-first collection of decoded `text/plain` and `text/html` bodies;
the part contributes its own data before its sub-parts, as `process_part`
does in workflow_pipeline/emails.py lines 121-139. -/
def collectPart : MimePart → List String × List String
  | MimePart.node mt d children =>
    let here := partTexts mt d
    let sub := collectForest children
    (here.1 ++ sub.1, here.2 ++ sub.2)

/-- Collection over a list of parts in order. -/
def collectForest : List MimePart → List String × List String
  | [] => ([], [])
  | p :: ps =>
    let a := collectPart p
    let b := collectForest ps
    (a.1 ++ b.1, a.2 ++ b.2)

end

/-- Embedding of `extract_body_from_parts` from workflow_pipeline/emails.py
lines 117-146: all plain texts are joined and cleaned; only when no plain
text exists anywhere are the html texts joined and cleaned; otherwise the
result is empty. -/
def extract_body_from_parts (parts : List MimePart) : String :=
  let pr := collectForest parts
  if pr.1 ≠ [] then clean_html_content (String.intercalate " " pr.1)
  else if pr.2 ≠ [] then clean_html_content (String.intercalate " " pr.2)
  else ""

mutual

/-- Specification-side DFS enumeration of the (mime type, decoded data)
pairs of all parts carrying data, in traversal order. -/
def dfsPart : MimePart → List (String × String)
  | MimePart.node mt d children =>
    (match d with
     | some s => [(mt, s)]
     | none => []) ++ dfsForest children

/-- DFS enumeration over a list of parts. -/
def dfsForest : List MimePart → List (String × String)
  | [] => []
  | p :: ps => dfsPart p ++ dfsForest ps

end

/-- The plain-text leaves of the tree in DFS order. -/
def plainTexts (parts : List MimePart) : List String :=
  (dfsForest parts).filterMap (fun pr => if pr.1 = "text/plain" then some pr.2 else none)

/-- The html leaves of the tree in DFS order. -/
def htmlTexts (parts : List MimePart) : List String :=
  (dfsForest parts).filterMap (fun pr => if pr.1 = "text/html" then some pr.2 else none)

/-- The body extractor that the specification describes: the cleaned text
of the FIRST plain-text leaf in depth-first order, the first html leaf if
no plain leaf exists, the empty string otherwise.  Written from the words
of the specification for comparison with the embedded code. -/
def spec_extract_body (parts : List MimePart) : String :=
  match (plainTexts parts).head? with
  | some s => clean_html_content s
  | none =>
    match (htmlTexts parts).head? with
    | some s => clean_html_content s
    | none => ""

mutual

/-- The code collection equals the DFS enumeration filtered by mime type,
part version. -/
theorem collectPart_eq_dfs : ∀ p : MimePart,
    collectPart p = ((dfsPart p).filterMap (fun pr => if pr.1 = "text/plain" then some pr.2 else none),
      (dfsPart p).filterMap (fun pr => if pr.1 = "text/html" then some pr.2 else none))
  | MimePart.node mt d children => by
    rw [collectPart, dfsPart.eq_def, collectForest_eq_dfs children]
    rw [List.filterMap_append, List.filterMap_append]
    match d with
    | none => rfl
    | some s =>
      by_cases h1 : mt = "text/plain"
      · simp [partTexts, h1]
      · by_cases h2 : mt = "text/html"
        · simp [partTexts, h1, h2]
        · simp [partTexts, h1, h2]

/-- The code collection equals the DFS enumeration filtered by mime type,
forest version. -/
theorem collectForest_eq_dfs : ∀ ps : List MimePart,
    collectForest ps = ((dfsForest ps).filterMap (fun pr => if pr.1 = "text/plain" then some pr.2 else none),
      (dfsForest ps).filterMap (fun pr => if pr.1 = "text/html" then some pr.2 else none))
  | [] => rfl
  | p :: ps => by
    rw [collectForest, dfsForest, collectPart_eq_dfs p, collectForest_eq_dfs ps]
    rw [List.filterMap_append, List.filterMap_append]

end

/-- C9 (amended): body extraction walks the part tree depth first and
returns the cleaned join of ALL `text/plain` leaf texts; only when no
plain leaf exists anywhere does it fall back to the cleaned join of all
`text/html` leaf texts, and it returns the empty string when neither
exists. -/
theorem c9_extract_body_joins_all (parts : List MimePart) :
    extract_body_from_parts parts =
      (if plainTexts parts ≠ [] then clean_html_content (String.intercalate " " (plainTexts parts))
       else if htmlTexts parts ≠ [] then clean_html_content (String.intercalate " " (htmlTexts parts))
       else "") := by
  rw [extract_body_from_parts, collectForest_eq_dfs parts]
  rfl

/-- Two plain-text parts side by side. -/
def twoPlainParts : List MimePart :=
  [MimePart.node "text/plain" (some "aaa") [], MimePart.node "text/plain" (some "bbb") []]

/-- C9: the claim that extraction returns the cleaned text of the first
`text/plain` leaf is false: with two plain leaves the code returns the
cleaned join of both, not the first alone. -/
theorem c9_counterexample :
    extract_body_from_parts twoPlainParts = "aaa bbb" ∧
      spec_extract_body twoPlainParts = "aaa" ∧
      extract_body_from_parts twoPlainParts ≠ spec_extract_body twoPlainParts := by
  refine ⟨?_, ?_, ?_⟩
  · show clean_html_content "aaa bbb" = "aaa bbb"
    decide
  · show clean_html_content "aaa" = "aaa"
    decide
  · show clean_html_content "aaa bbb" ≠ clean_html_content "aaa"
    decide

/-! ## Rejection pre-filter

`REJECTION_PATTERNS` (workflow_pipeline/emails.py lines 40-52) is a single
case-insensitive alternation of fixed phrases, each wrapped in word
boundaries.  The optional groups are expanded into the explicit list of
alternative phrases below; `is_rejection` lowercases
`subject + " " + body` first, so the phrases are written lowercase. -/

/-- The expanded alternatives of `REJECTION_PATTERNS`. -/
def rejectionPhrases : List (List Char) :=
  [("rejection").data, ("declined").data, ("not selected").data, ("unfortunately").data,
    ("unable to proceed").data, ("regret to inform").data, ("move forward").data,
    ("other qualified candidates").data, ("other candidates").data,
    ("position has been filled").data, ("position filled").data,
    ("rejected").data, ("not moving forward").data, ("candidate pool").data,
    ("we" ++ String.mk [apos] ++ "ve decided").data, ("we have decided").data,
    ("after careful consideration").data,
    ("although we were impressed").data, ("pursue other candidates").data,
    ("wish you luck in your job search").data, ("wish you luck in your search").data,
    ("wish you success in your job search").data, ("wish you success in your search").data,
    ("does not align with our needs").data, ("does not align to our needs").data,
    ("not align with our needs").data, ("not align to our needs").data]

/-- A word boundary holds against a missing neighbour or a non-word one
(every phrase starts and ends with a word character, so `\b` reduces to
this check on the neighbouring characters). -/
def boundaryOk : Option Char → Bool
  | some c => !isWordChar c
  | none => true

/-- Phrase occurrence at the current position with word boundaries on both
sides; `prev` is the character just before the position. -/
def phraseAt (p : List Char) (prev : Option Char) (l : List Char) : Bool :=
  p.isPrefixOf l && boundaryOk prev && boundaryOk (l.drop p.length).head?

/-- Scan all positions for a bounded occurrence of the phrase. -/
def scanPhrase (p : List Char) : Option Char → List Char → Bool
  | prev, [] => phraseAt p prev []
  | prev, c :: cs => phraseAt p prev (c :: cs) || scanPhrase p (some c) cs

/-- Embedding of `is_rejection` from workflow_pipeline/emails.py lines
149-152: one scan of the lowercased `subject + " " + body` against the
phrase alternation. -/
def is_rejection (subject body : String) : Bool :=
  let content := (subject ++ " " ++ body).data.map Char.toLower
  rejectionPhrases.any (fun p => scanPhrase p none content)

example : is_rejection "Your application" "Unfortunately we will not proceed" = true := by decide
example : is_rejection "Interview" "we look forward to meeting you" = false := by decide
example : is_rejection "x" "craftsmanshipfilledtalk" = false := by decide
example : is_rejection "Thanks" "position filled already" = true := by decide

/-! ## Per-message pipeline of fetch_and_classify_emails

The loop body of `fetch_and_classify_emails` (workflow_pipeline/emails.py
lines 289-331) is embedded with the two model calls as oracle functions:
`classify` stands for `classify_email` (its contract: it returns the label
confirmation or unrelated, or raises) and `extract` for
`EntityExtractor.predict`.  A raised exception anywhere in the body is
caught by the per-message handler, which only logs — the message then
contributes to neither output list. -/

/-- Labels returned by `classify_email`. -/
inductive Label where
  | confirmation
  | unrelated
deriving DecidableEq, Repr

/-- Result shape of `EntityExtractor.predict`. -/
structure ExtractResult where
  companies : List String
  positions : List String
deriving DecidableEq, Repr

/-- One fetched message: the optional Subject header, the optional
`payload["parts"]` list (`none` when the key is absent) and the optional
decoded `payload["body"]["data"]`. -/
structure EmailMsg where
  subjectHeader : Option String
  payloadParts : Option (List MimePart)
  payloadData : Option String

/-- Fate of one message in the loop. -/
inductive MsgOutcome where
  | rejection
  | confirmed : String → Option String → Option String → MsgOutcome
  | nonJob : String → MsgOutcome
  | errored
deriving DecidableEq, Repr

/-- Embedding of `headers.get("Subject", "No Subject")`. -/
def subjectOf (m : EmailMsg) : String :=
  m.subjectHeader.getD "No Subject"

/-- Lines 303-308: with a `parts` key the body comes from
`extract_body_from_parts`; otherwise from the decoded payload data, and if
that is missing too the later use of the unbound `body` variable raises
(modelled as `none`). -/
def bodyResult (m : EmailMsg) : Option String :=
  match m.payloadParts with
  | some ps => some (extract_body_from_parts ps)
  | none => m.payloadData

/-- The loop body for one message (lines 290-331). -/
def processMessage (classify : String → Except Unit Label)
    (extract : String → Except Unit ExtractResult) (m : EmailMsg) : MsgOutcome :=
  match bodyResult m with
  | none => MsgOutcome.errored
  | some body =>
    let subject := subjectOf m
    let cleaned := clean_html_content body
    let finalText := subject ++ " " ++ cleaned
    if is_rejection subject cleaned then MsgOutcome.rejection
    else
      match classify finalText with
      | Except.error _ => MsgOutcome.errored
      | Except.ok Label.unrelated => MsgOutcome.nonJob subject
      | Except.ok Label.confirmation =>
        match extract finalText with
        | Except.error _ => MsgOutcome.errored
        | Except.ok r =>
          MsgOutcome.confirmed subject r.companies.head? r.positions.head?

/-- The entry a message appends to the `confirmations` list, if any. -/
def confirmationOf (classify : String → Except Unit Label)
    (extract : String → Except Unit ExtractResult) (m : EmailMsg) :
    Option (String × Option String × Option String) :=
  match processMessage classify extract m with
  | MsgOutcome.confirmed s c p => some (s, c, p)
  | _ => none

/-- The `confirmations` list built by the fetch loop over the whole batch.
-/
def fetchConfirmations (classify : String → Except Unit Label)
    (extract : String → Except Unit ExtractResult) (msgs : List EmailMsg) :
    List (String × Option String × Option String) :=
  msgs.filterMap (confirmationOf classify extract)

/-- C1: a message whose subject and cleaned body match a rejection phrase
is labelled rejection at once; the outcome does not depend on the
classifier or extractor (they are never invoked) and the message
contributes nothing to the confirmations output. -/
theorem c1_rejection_short_circuit (m : EmailMsg) (b : String)
    (hb : bodyResult m = some b)
    (hr : is_rejection (subjectOf m) (clean_html_content b) = true) :
    (∀ (classify : String → Except Unit Label) (extract : String → Except Unit ExtractResult),
      processMessage classify extract m = MsgOutcome.rejection) ∧
    (∀ (classify : String → Except Unit Label) (extract : String → Except Unit ExtractResult)
      (msgs1 msgs2 : List EmailMsg),
      fetchConfirmations classify extract (msgs1 ++ m :: msgs2) =
        fetchConfirmations classify extract (msgs1 ++ msgs2)) := by
  have hproc : ∀ (classify : String → Except Unit Label)
      (extract : String → Except Unit ExtractResult),
      processMessage classify extract m = MsgOutcome.rejection := by
    intro cl ex
    rw [processMessage, hb]
    simp only [hr, if_true]
  refine ⟨hproc, ?_⟩
  intro cl ex msgs1 msgs2
  rw [fetchConfirmations, fetchConfirmations, List.filterMap_append, List.filterMap_append,
    List.filterMap_cons]
  have hnone : confirmationOf cl ex m = none := by
    rw [confirmationOf, hproc]
  rw [hnone]

/-- A classifier oracle that always succeeds with unrelated. -/
def constClassify : String → Except Unit Label :=
  fun _ => Except.ok Label.unrelated

/-- A classifier oracle that always raises. -/
def failClassify : String → Except Unit Label :=
  fun _ => Except.error ()

/-- An extractor oracle that always succeeds with empty candidate sets. -/
def constExtract : String → Except Unit ExtractResult :=
  fun _ => Except.ok { companies := [], positions := [] }

/-- An extractor oracle that always raises. -/
def failExtract : String → Except Unit ExtractResult :=
  fun _ => Except.error ()

/-- A concrete rejection message: subject carries the phrase. -/
def rejMsg : EmailMsg :=
  { subjectHeader := some "unfortunately", payloadParts := none, payloadData := some "hello" }

/-- C1 witness at a concrete rejection message. -/
theorem c1_witness :
    bodyResult rejMsg = some "hello" ∧
      is_rejection (subjectOf rejMsg) (clean_html_content "hello") = true ∧
      processMessage constClassify constExtract rejMsg = MsgOutcome.rejection :=
  ⟨rfl, by decide,
    (c1_rejection_short_circuit rejMsg "hello" rfl (by decide)).1 constClassify constExtract⟩

/-- C6 (amended): when the classifier raises, the per-message handler
catches the exception and the message is skipped with no label at all: it
is not added to the non-job list, never reaches entity extraction (the
outcome is independent of the extractor oracle), and contributes nothing
to the confirmations output. -/
theorem c6_classifier_failure_skips (m : EmailMsg)
    (classify : String → Except Unit Label)
    (extract1 extract2 : String → Except Unit ExtractResult)
    (hfail : ∀ t, classify t = Except.error ()) :
    (processMessage classify extract1 m = MsgOutcome.errored ∨
      processMessage classify extract1 m = MsgOutcome.rejection) ∧
    processMessage classify extract1 m = processMessage classify extract2 m ∧
    confirmationOf classify extract1 m = none := by
  have hshape : ∀ (ex : String → Except Unit ExtractResult),
      processMessage classify ex m = MsgOutcome.errored ∨
        processMessage classify ex m = MsgOutcome.rejection := by
    intro ex
    cases hbb : bodyResult m with
    | none =>
      rw [processMessage, hbb]
      exact Or.inl rfl
    | some body =>
      simp only [processMessage, hbb]
      by_cases hrej : is_rejection (subjectOf m) (clean_html_content body) = true
      · rw [if_pos hrej]
        exact Or.inr rfl
      · rw [if_neg hrej, hfail]
        exact Or.inl rfl
  have heq : processMessage classify extract1 m = processMessage classify extract2 m := by
    cases hbb : bodyResult m with
    | none => rw [processMessage, processMessage, hbb]
    | some body =>
      simp only [processMessage, hbb]
      by_cases hrej : is_rejection (subjectOf m) (clean_html_content body) = true
      · simp only [if_pos hrej]
      · simp only [if_neg hrej, hfail]
  refine ⟨hshape extract1, heq, ?_⟩
  rw [confirmationOf]
  rcases hshape extract1 with h1 | h1 <;> rw [h1]

/-- A non-rejection message used for the classifier-failure analysis. -/
def plainMsg : EmailMsg :=
  { subjectHeader := some "Update", payloadParts := none, payloadData := some "welcome aboard" }

/-- C6: the claim that a message whose classification fails persistently
is assigned the fail-safe default label unrelated is false: the
per-message handler swallows the exception and the message is skipped
(outcome errored), never labelled unrelated. -/
theorem c6_counterexample :
    processMessage failClassify constExtract plainMsg = MsgOutcome.errored ∧
      processMessage failClassify constExtract plainMsg ≠
        MsgOutcome.nonJob (subjectOf plainMsg) := by
  refine ⟨?_, ?_⟩ <;> decide

/-- C6 witness: the amended statement applied to the concrete failing
classifier and message. -/
theorem c6_witness :
    (∀ t, failClassify t = Except.error ()) ∧
      processMessage failClassify failExtract plainMsg =
        processMessage failClassify constExtract plainMsg ∧
      confirmationOf failClassify failExtract plainMsg = none :=
  ⟨fun _ => rfl,
    (c6_classifier_failure_skips plainMsg failClassify failExtract constExtract
      (fun _ => rfl)).2.1,
    (c6_classifier_failure_skips plainMsg failClassify failExtract constExtract
      (fun _ => rfl)).2.2⟩

/-! ## logic.py: deduplication (_process_entries)

`DB_CONFIG` constants from workflow_pipeline/logic.py lines 13-20.  The
`applied_date` field is `datetime.utcnow()`, a wall-clock read outside the
embedding; it takes no part in any compared behaviour and is omitted from
the record. -/

/-- Constant `DB_CONFIG["unknown_placeholder"]`. -/
def UNKNOWN : String := "unknown position"

/-- Constant `DB_CONFIG["batch_size"]`. -/
def BATCH_SIZE : Nat := 50

/-- Constant `DB_CONFIG["max_retries"]`. -/
def MAX_RETRIES : Nat := 3

/-- Constant `DB_CONFIG["commit_interval"]`. -/
def COMMIT_INTERVAL : Nat := 25

/-- One candidate application as fed to `insert_job_applications`: the
dict values of `company` and `job_title` (a missing key defaults to the
empty string via `app.get`). -/
structure AppEntry where
  company : String
  job_title : String
deriving DecidableEq, Repr

/-- One stored or to-be-stored `job_applications` row (the unique key
triple of the `uix_user_company_job` constraint). -/
structure Row where
  user_email : String
  company : String
  job_title : String
deriving DecidableEq, Repr

/-- Python `str.strip()`. -/
def pyStrip (s : String) : String :=
  String.mk (stripChars s.data)

/-- Python `str.lower()` on ASCII text. -/
def pyLower (s : String) : String :=
  String.mk (s.data.map Char.toLower)

/-- The case-folded company key of an entry (`raw_company.lower()`). -/
def entryKey (e : AppEntry) : String :=
  pyLower (pyStrip e.company)

/-- The kept title of an entry: `raw_title or UNKNOWN` after strip+lower. -/
def entryTitle (e : AppEntry) : String :=
  let t := pyLower (pyStrip e.job_title)
  if t = "" then UNKNOWN else t

/-- One iteration of the `_process_entries` loop (logic.py lines 65-84)
over the ordered company map, modelled as a list of rows with distinct
companies: a new company is appended, an existing one is replaced in place
exactly when the stored title is the sentinel and the incoming one is not.
-/
def insertApp (user_email : String) (m : List Row) (e : AppEntry) : List Row :=
  if pyStrip e.company = "" then m
  else
    let key := entryKey e
    let title := entryTitle e
    match m.find? (fun r => r.company == key) with
    | none => m ++ [⟨user_email, key, title⟩]
    | some ex =>
      if ex.job_title = UNKNOWN ∧ title ≠ UNKNOWN then
        m.map (fun r => if r.company == key then ⟨user_email, key, title⟩ else r)
      else m

/-- Embedding of `_process_entries` (logic.py lines 61-86); the output
order is the dict insertion order of `company_map.values()`. -/
def _process_entries (applications : List AppEntry) (user_email : String) : List Row :=
  applications.foldl (insertApp user_email) []

/-- Entries that survive the empty-company guard. -/
def validApps (apps : List AppEntry) : List AppEntry :=
  apps.filter (fun e => !(pyStrip e.company == ""))

/-- The entries of the batch that name company `c`. -/
def groupFor (apps : List AppEntry) (c : String) : List AppEntry :=
  (validApps apps).filter (fun e => entryKey e == c)

/-- The entry whose title the specification says survives for company `c`:
the first entry with a non-sentinel title if one exists, otherwise the
first entry for the company. -/
def keptEntryFor (apps : List AppEntry) (c : String) : Option AppEntry :=
  match (groupFor apps c).find? (fun e => !(entryTitle e == UNKNOWN)) with
  | some e => some e
  | none => (groupFor apps c).head?

/-- Effect of one entry on the record tracked for company `c`. -/
def afterOne (u : String) (c : String) (cur : Option Row) (e : AppEntry) : Option Row :=
  if pyStrip e.company = "" then cur
  else if entryKey e = c then
    match cur with
    | none => some ⟨u, entryKey e, entryTitle e⟩
    | some r =>
      if r.job_title = UNKNOWN ∧ entryTitle e ≠ UNKNOWN then some ⟨u, entryKey e, entryTitle e⟩
      else some r
  else cur

/-- Effect of a whole batch on the record tracked for company `c`. -/
def afterFold (u : String) (c : String) (cur : Option Row) (apps : List AppEntry) : Option Row :=
  apps.foldl (afterOne u c) cur

/-- Replacing the value stored under `key` leaves lookups of other
companies unchanged. -/
theorem find?_replace_ne (key c : String) (v : Row) (hv : v.company = key) (hne : c ≠ key) :
    ∀ m : List Row,
      (m.map (fun r => if r.company == key then v else r)).find? (fun r => r.company == c) =
        m.find? (fun r => r.company == c) := by
  intro m
  induction m with
  | nil => rfl
  | cons r m ih =>
    by_cases hr : r.company = key
    · rw [List.map_cons, if_pos (by simp [hr]), List.find?_cons_of_neg _ (by simp [hv, Ne.symm hne]),
        List.find?_cons_of_neg _ (by simp [hr, Ne.symm hne]), ih]
    · rw [List.map_cons, if_neg (by simp [hr])]
      by_cases hc : r.company = c
      · rw [List.find?_cons_of_pos _ (by simp [hc]), List.find?_cons_of_pos _ (by simp [hc])]
      · rw [List.find?_cons_of_neg _ (by simp [hc]), List.find?_cons_of_neg _ (by simp [hc]), ih]

/-- Replacing the value stored under `key` makes lookups of `key` return
the new value, provided the key was present. -/
theorem find?_replace_eq (key : String) (v : Row) (hv : v.company = key) :
    ∀ (m : List Row) (ex : Row), m.find? (fun r => r.company == key) = some ex →
      (m.map (fun r => if r.company == key then v else r)).find? (fun r => r.company == key) =
        some v := by
  intro m
  induction m with
  | nil => intro ex h; exact absurd h (by simp)
  | cons r m ih =>
    intro ex h
    by_cases hr : r.company = key
    · rw [List.map_cons, if_pos (by simp [hr]), List.find?_cons_of_pos _ (by simp [hv])]
    · rw [List.find?_cons_of_neg _ (by simp [hr])] at h
      rw [List.map_cons, if_neg (by simp [hr]), List.find?_cons_of_neg _ (by simp [hr])]
      exact ih ex h

/-- Appending a fresh row: lookup afterwards finds the old value first and
the new row only for its own company. -/
theorem find?_append_single (c : String) (v : Row) :
    ∀ m : List Row, (m ++ [v]).find? (fun r => r.company == c) =
      match m.find? (fun r => r.company == c) with
      | some r => some r
      | none => if v.company = c then some v else none := by
  intro m
  induction m with
  | nil =>
    rw [List.nil_append]
    simp only [List.find?_nil]
    by_cases hc : v.company = c
    · rw [List.find?_cons_of_pos _ (by simp [hc]), if_pos hc]
    · rw [List.find?_cons_of_neg _ (by simp [hc]), if_neg hc, List.find?_nil]
  | cons r m ih =>
    by_cases hr : r.company = c
    · rw [List.cons_append, List.find?_cons_of_pos _ (by simp [hr]),
        List.find?_cons_of_pos _ (by simp [hr])]
    · rw [List.cons_append, List.find?_cons_of_neg _ (by simp [hr]),
        List.find?_cons_of_neg _ (by simp [hr]), ih]

/-- One `_process_entries` iteration changes the tracked record for
company `c` exactly as `afterOne` describes. -/
theorem find?_insertApp (u : String) (m : List Row) (e : AppEntry) (c : String) :
    (insertApp u m e).find? (fun r => r.company == c) =
      afterOne u c (m.find? (fun r => r.company == c)) e := by
  by_cases hemp : pyStrip e.company = ""
  · simp only [insertApp, afterOne.eq_def, if_pos hemp]
  · by_cases hkey : entryKey e = c
    · subst hkey
      cases hfk : m.find? (fun r => r.company == entryKey e) with
      | none =>
        simp only [insertApp, afterOne.eq_def, if_neg hemp, hfk, eq_self_iff_true, if_true]
        rw [find?_append_single (entryKey e) _ m, hfk]
        simp
      | some ex =>
        by_cases hcond : ex.job_title = UNKNOWN ∧ entryTitle e ≠ UNKNOWN
        · simp only [insertApp, afterOne.eq_def, if_neg hemp, hfk, eq_self_iff_true, if_true,
            if_pos hcond]
          exact find?_replace_eq (entryKey e) _ rfl m ex hfk
        · simp only [insertApp, afterOne.eq_def, if_neg hemp, hfk, eq_self_iff_true, if_true,
            if_neg hcond]
    · cases hfk : m.find? (fun r => r.company == entryKey e) with
      | none =>
        simp only [insertApp, afterOne.eq_def, if_neg hemp, hfk, if_neg hkey]
        rw [find?_append_single c _ m]
        cases hfc : m.find? (fun r => r.company == c) with
        | none => simp only [if_neg hkey]
        | some r => rfl
      | some ex =>
        by_cases hcond : ex.job_title = UNKNOWN ∧ entryTitle e ≠ UNKNOWN
        · simp only [insertApp, afterOne.eq_def, if_neg hemp, hfk, if_neg hkey, if_pos hcond]
          exact find?_replace_ne (entryKey e) c _ rfl (fun h => hkey h.symm) m
        · simp only [insertApp, afterOne.eq_def, if_neg hemp, hfk, if_neg hkey, if_neg hcond]

/-- The tracked record of the fold is computed by `afterFold`. -/
theorem find?_process_fold (u : String) (c : String) :
    ∀ (apps : List AppEntry) (m : List Row),
      (List.foldl (insertApp u) m apps).find? (fun r => r.company == c) =
        afterFold u c (m.find? (fun r => r.company == c)) apps := by
  intro apps
  induction apps with
  | nil => intro m; rfl
  | cons e apps ih =>
    intro m
    rw [List.foldl_cons, ih (insertApp u m e), find?_insertApp u m e c]
    rfl

/-- The first non-sentinel entry for company `c` in the batch. -/
def firstKnown (apps : List AppEntry) (c : String) : Option AppEntry :=
  (groupFor apps c).find? (fun e => !(entryTitle e == UNKNOWN))

/-- Group computation over a cons cell. -/
theorem groupFor_cons (e : AppEntry) (apps : List AppEntry) (c : String) :
    groupFor (e :: apps) c =
      if pyStrip e.company ≠ "" ∧ entryKey e = c then e :: groupFor apps c
      else groupFor apps c := by
  simp only [groupFor, validApps]
  by_cases hemp : pyStrip e.company = ""
  · rw [List.filter_cons_of_neg (by simp [hemp]), if_neg (fun h => h.1 hemp)]
  · rw [List.filter_cons_of_pos (by simp [hemp])]
    by_cases hkey : entryKey e = c
    · rw [List.filter_cons_of_pos (by simp [hkey]), if_pos ⟨hemp, hkey⟩]
    · rw [List.filter_cons_of_neg (by simp [hkey]), if_neg (fun h => hkey h.2)]

/-- Unfolding lemma for `firstKnown` over a cons cell. -/
theorem firstKnown_cons (e : AppEntry) (apps : List AppEntry) (c : String) :
    firstKnown (e :: apps) c =
      if pyStrip e.company = "" then firstKnown apps c
      else if entryKey e = c then
        (if entryTitle e = UNKNOWN then firstKnown apps c else some e)
      else firstKnown apps c := by
  rw [firstKnown, groupFor_cons]
  by_cases hemp : pyStrip e.company = ""
  · rw [if_neg (fun h => h.1 hemp), if_pos hemp]
    rfl
  · rw [if_neg hemp]
    by_cases hkey : entryKey e = c
    · rw [if_pos ⟨hemp, hkey⟩, if_pos hkey]
      by_cases ht : entryTitle e = UNKNOWN
      · rw [List.find?_cons_of_neg _ (by simp [ht]), if_pos ht]
        rfl
      · rw [List.find?_cons_of_pos _ (by simp [ht]), if_neg ht]
    · rw [if_neg (fun h => hkey h.2), if_neg hkey]
      rfl

/-- Unfolding lemma for `keptEntryFor` over a cons cell. -/
theorem keptEntryFor_cons (e : AppEntry) (apps : List AppEntry) (c : String) :
    keptEntryFor (e :: apps) c =
      if pyStrip e.company = "" then keptEntryFor apps c
      else if entryKey e = c then
        (if entryTitle e = UNKNOWN then
          (match firstKnown apps c with
           | some e2 => some e2
           | none => some e)
         else some e)
      else keptEntryFor apps c := by
  rw [keptEntryFor, groupFor_cons]
  by_cases hemp : pyStrip e.company = ""
  · rw [if_neg (fun h => h.1 hemp), if_pos hemp]
    rfl
  · rw [if_neg hemp]
    by_cases hkey : entryKey e = c
    · rw [if_pos ⟨hemp, hkey⟩, if_pos hkey]
      by_cases ht : entryTitle e = UNKNOWN
      · rw [List.find?_cons_of_neg _ (by simp [ht]), if_pos ht]
        show (match firstKnown apps c with
          | some e2 => some e2
          | none => (e :: groupFor apps c).head?) = _
        cases firstKnown apps c with
        | none => rfl
        | some e2 => rfl
      · rw [List.find?_cons_of_pos _ (by simp [ht]), if_neg ht]
    · rw [if_neg (fun h => hkey h.2), if_neg hkey]
      rfl

/-- A record with a known title is never replaced. -/
theorem afterFold_known (u c : String) (r : Row) (hr : r.job_title ≠ UNKNOWN) :
    ∀ apps : List AppEntry, afterFold u c (some r) apps = some r := by
  intro apps
  induction apps with
  | nil => rfl
  | cons e apps ih =>
    have hone : afterOne u c (some r) e = some r := by
      rw [afterOne.eq_def]
      by_cases hemp : pyStrip e.company = ""
      · rw [if_pos hemp]
      · rw [if_neg hemp]
        by_cases hkey : entryKey e = c
        · rw [if_pos hkey]
          simp only [if_neg (fun hc : r.job_title = UNKNOWN ∧ entryTitle e ≠ UNKNOWN => hr hc.1)]
        · rw [if_neg hkey]
    show afterFold u c (afterOne u c (some r) e) apps = some r
    rw [hone]
    exact ih

/-- A record with the sentinel title is replaced by the first non-sentinel
entry for its company, if any arrives. -/
theorem afterFold_unknown (u c : String) (r : Row) (hr : r.job_title = UNKNOWN) :
    ∀ apps : List AppEntry, afterFold u c (some r) apps =
      match firstKnown apps c with
      | some e => some ⟨u, entryKey e, entryTitle e⟩
      | none => some r := by
  intro apps
  induction apps generalizing r with
  | nil => rw [firstKnown]; rfl
  | cons e apps ih =>
    show afterFold u c (afterOne u c (some r) e) apps = _
    rw [firstKnown_cons]
    by_cases hemp : pyStrip e.company = ""
    · rw [if_pos hemp]
      have hone : afterOne u c (some r) e = some r := by
        rw [afterOne.eq_def]
        simp [hemp]
      rw [hone, ih r hr]
    · rw [if_neg hemp]
      by_cases hkey : entryKey e = c
      · rw [if_pos hkey]
        by_cases ht : entryTitle e = UNKNOWN
        · rw [if_pos ht]
          have hone : afterOne u c (some r) e = some r := by
            rw [afterOne.eq_def]
            simp [hemp, hkey, ht]
          rw [hone, ih r hr]
        · rw [if_neg ht]
          have hone : afterOne u c (some r) e = some ⟨u, entryKey e, entryTitle e⟩ := by
            rw [afterOne.eq_def]
            simp [hemp, hkey, hr, ht]
          rw [hone, afterFold_known u c _ (by exact ht) apps]
      · rw [if_neg hkey]
        have hone : afterOne u c (some r) e = some r := by
          rw [afterOne.eq_def]
          simp [hemp, hkey]
        rw [hone, ih r hr]

/-- Starting from no record, the fold produces exactly the entry that the
specification says survives. -/
theorem afterFold_none (u c : String) :
    ∀ apps : List AppEntry, afterFold u c none apps =
      (keptEntryFor apps c).map (fun e => (⟨u, entryKey e, entryTitle e⟩ : Row)) := by
  intro apps
  induction apps with
  | nil => rfl
  | cons e apps ih =>
    show afterFold u c (afterOne u c none e) apps = _
    rw [keptEntryFor_cons]
    by_cases hemp : pyStrip e.company = ""
    · rw [if_pos hemp]
      have hone : afterOne u c none e = none := by
        rw [afterOne.eq_def]
        simp [hemp]
      rw [hone, ih]
    · rw [if_neg hemp]
      by_cases hkey : entryKey e = c
      · rw [if_pos hkey]
        have hone : afterOne u c none e = some ⟨u, entryKey e, entryTitle e⟩ := by
          rw [afterOne.eq_def]
          simp [hemp, hkey]
        by_cases ht : entryTitle e = UNKNOWN
        · rw [if_pos ht, hone, afterFold_unknown u c _ (by exact ht) apps]
          cases firstKnown apps c with
          | none => rfl
          | some e2 => rfl
        · rw [if_neg ht, hone, afterFold_known u c _ (by exact ht) apps]
          rfl
      · rw [if_neg hkey]
        have hone : afterOne u c none e = none := by
          rw [afterOne.eq_def]
          simp [hemp, hkey]
        rw [hone, ih]

/-- The companies of the map stay distinct through one iteration. -/
theorem companies_insertApp (u : String) (m : List Row) (e : AppEntry)
    (h : (m.map (fun r => r.company)).Nodup) :
    ((insertApp u m e).map (fun r => r.company)).Nodup := by
  by_cases hemp : pyStrip e.company = ""
  · simp only [insertApp, if_pos hemp]
    exact h
  · cases hfk : m.find? (fun r => r.company == entryKey e) with
    | none =>
      simp only [insertApp, if_neg hemp, hfk]
      rw [List.map_append, List.map_singleton, List.nodup_append]
      refine ⟨h, List.nodup_singleton _, ?_⟩
      intro a ha hb
      rw [List.mem_singleton] at hb
      rcases List.mem_map.1 ha with ⟨r, hr, hrc⟩
      have hno := List.find?_eq_none.1 hfk r hr
      rw [hb] at hrc
      simp [hrc] at hno
    | some ex =>
      by_cases hcond : ex.job_title = UNKNOWN ∧ entryTitle e ≠ UNKNOWN
      · simp only [insertApp, if_neg hemp, hfk, if_pos hcond]
        have hmap : (m.map (fun r => if r.company == entryKey e then
            (⟨u, entryKey e, entryTitle e⟩ : Row) else r)).map (fun r => r.company) =
            m.map (fun r => r.company) := by
          rw [List.map_map]
          refine List.map_congr_left ?_
          intro r _
          by_cases hc : r.company = entryKey e
          · simp [Function.comp, hc]
          · simp [Function.comp, hc]
        rw [hmap]
        exact h
      · simp only [insertApp, if_neg hemp, hfk, if_neg hcond]
        exact h

/-- C2: `_process_entries` keeps exactly one entry per case-folded
company: the companies of the output are pairwise distinct, and the entry
kept for each company is the first one with a non-sentinel title if any
exists (so a non-sentinel entry always beats a sentinel one), otherwise
the first-seen entry. -/
theorem c2_process_entries_dedup (apps : List AppEntry) (u : String) :
    ((_process_entries apps u).map (fun r => r.company)).Nodup ∧
      ∀ c : String, (_process_entries apps u).find? (fun r => r.company == c) =
        (keptEntryFor apps c).map (fun e => (⟨u, entryKey e, entryTitle e⟩ : Row)) := by
  constructor
  · have main : ∀ (l : List AppEntry) (m : List Row), (m.map (fun r => r.company)).Nodup →
        ((List.foldl (insertApp u) m l).map (fun r => r.company)).Nodup := by
      intro l
      induction l with
      | nil => intro m h; exact h
      | cons e l ih =>
        intro m h
        rw [List.foldl_cons]
        exact ih (insertApp u m e) (companies_insertApp u m e h)
    exact main apps [] (by simp)
  · intro c
    rw [_process_entries, find?_process_fold u c apps []]
    exact afterFold_none u c apps

/-! ## logic.py: storage model and persistence

The async session is modelled as explicit state: `committed` rows,
`pending` rows of the open transaction (a SELECT in the same session sees
both), and a fault script.  Each fallible primitive (SELECT, INSERT,
COMMIT) consumes one entry of the script and raises when it is `true`; an
exhausted script means no further faults.  `rollback` discards the pending
rows and is assumed not to fail itself. -/

/-- Database session state. -/
structure DbState where
  committed : List Row
  pending : List Row
  faults : List Bool
deriving DecidableEq, Repr

/-- Rows visible to this session (committed plus its own pending). -/
def visible (db : DbState) : List Row :=
  db.committed ++ db.pending

/-- Consume one entry of the fault script. -/
def popFault (db : DbState) : Bool × DbState :=
  match db.faults with
  | [] => (false, db)
  | f :: fs => (f, { db with faults := fs })

/-- Embedding of `db.rollback()`: discard the pending rows. -/
def dbRollback (db : DbState) : DbState :=
  { db with pending := [] }

/-- The SELECT of `_filter_conflicting_unknowns` (logic.py lines 126-134):
companies of rows of this user, among the given companies, whose title is
not the sentinel. -/
def knownCompanies (db : DbState) (u : String) (companies : List String) : List String :=
  (visible db).filterMap (fun r =>
    if r.user_email = u ∧ r.company ∈ companies ∧ r.job_title ≠ UNKNOWN then some r.company
    else none)

/-- The SELECT primitive (consumes one fault slot). -/
def dbSelectKnown (db : DbState) (u : String) (companies : List String) :
    Except Unit (List String) × DbState :=
  let (f, db1) := popFault db
  if f then (Except.error (), db1)
  else (Except.ok (knownCompanies db1 u companies), db1)

/-- Row-by-row effect of `INSERT ... ON CONFLICT DO NOTHING` keyed by the
`uix_user_company_job` constraint: a row whose key triple already exists
(in the table or earlier in the same statement) is skipped silently; the
returned count is `rowcount`, the number of rows actually written. -/
def insertRows (tbl : List Row) (pending : List Row) : List Row → Nat × List Row
  | [] => (0, pending)
  | r :: rs =>
    if (tbl ++ pending).contains r then insertRows tbl pending rs
    else ((insertRows tbl (pending ++ [r]) rs).1 + 1, (insertRows tbl (pending ++ [r]) rs).2)

/-- The INSERT statement primitive (consumes one fault slot). -/
def dbInsert (db : DbState) (batch : List Row) : Except Unit Nat × DbState :=
  let (f, db1) := popFault db
  if f then (Except.error (), db1)
  else
    let res := insertRows db1.committed db1.pending batch
    (Except.ok res.1, { db1 with pending := res.2 })

/-- Embedding of `db.commit()` (consumes one fault slot). -/
def dbCommit (db : DbState) : Except Unit Unit × DbState :=
  let (f, db1) := popFault db
  if f then (Except.error (), db1)
  else (Except.ok (), { db1 with committed := db1.committed ++ db1.pending, pending := [] })

/-- Embedding of `_execute_batch_insert` (logic.py lines 142-158): its own
try/except catches any failure, rolls the transaction back and returns 0 —
it never raises. -/
def _execute_batch_insert (db : DbState) (batch : List Row) : Nat × DbState :=
  match dbInsert db batch with
  | (Except.ok n, db1) => (n, db1)
  | (Except.error _, db1) => (0, dbRollback db1)

/-- Embedding of `_filter_conflicting_unknowns` (logic.py lines 122-140):
query the known titles of this user for the batch companies and drop every
unknown entry whose company already has one.  The user is read from the
first entry; the caller only invokes this with a nonempty list. -/
def _filter_conflicting_unknowns (db : DbState) (unknowns : List Row) :
    Except Unit (List Row) × DbState :=
  match unknowns with
  | [] => (Except.ok [], db)
  | u0 :: _ =>
    match dbSelectKnown db u0.user_email (unknowns.map (fun e => e.company)) with
    | (Except.ok existing, db1) =>
      (Except.ok (unknowns.filter (fun e => !(existing.contains e.company))), db1)
    | (Except.error e, db1) => (Except.error e, db1)

/-- One attempt of `_process_batch_with_retry` (logic.py lines 97-120):
split the batch into known and unknown titles, filter conflicting
unknowns against storage when there are any, and insert the rest. -/
def processBatchOnce (db : DbState) (batch : List Row) : Except Unit Nat × DbState :=
  let known := batch.filter (fun r => !(r.job_title == UNKNOWN))
  let unknown := batch.filter (fun r => r.job_title == UNKNOWN)
  match (if unknown.isEmpty then (Except.ok unknown, db)
         else _filter_conflicting_unknowns db unknown) with
  | (Except.error e, db1) => (Except.error e, db1)
  | (Except.ok unknown2, db1) =>
    let finalBatch := known ++ unknown2
    if finalBatch.isEmpty then (Except.ok 0, db1)
    else
      let res := _execute_batch_insert db1 finalBatch
      (Except.ok res.1, res.2)

/-- The tenacity retry wrapper: up to `n` attempts, re-raising after the
last failure (backoff delays are wall-clock effects outside the model). -/
def retryCall (f : DbState → Except Unit Nat × DbState) : Nat → DbState → Except Unit Nat × DbState
  | 0, db => (Except.error (), db)
  | 1, db => f db
  | n + 2, db =>
    match f db with
    | (Except.ok v, db1) => (Except.ok v, db1)
    | (Except.error _, db1) => retryCall f (n + 1) db1

/-- Embedding of `_process_batch_with_retry`, `stop_after_attempt(3)`. -/
def _process_batch_with_retry (db : DbState) (batch : List Row) : Except Unit Nat × DbState :=
  retryCall (fun d => processBatchOnce d batch) MAX_RETRIES db

/-- Slices of `range(0, len, batch_size)`; the fuel equals the list length
and only keeps the recursion structural (each step drops at least one
element). -/
def chunkFuel : Nat → List Row → List (List Row)
  | 0, _ => []
  | _ + 1, [] => []
  | fuel + 1, x :: xs => ((x :: xs).take BATCH_SIZE) :: chunkFuel fuel ((x :: xs).drop BATCH_SIZE)

/-- The chunks of the validated application list. -/
def chunksOf (l : List Row) : List (List Row) :=
  chunkFuel l.length l

/-- The batch loop of `insert_job_applications` (logic.py lines 40-48):
process each chunk with retry, add its count, and commit whenever
`batch_idx % commit_interval == 0` (with `batch_size` 50 and interval 25
that is after every chunk). -/
def insertLoop : List (List Row) → Nat → Nat → DbState → Except Unit Nat × DbState
  | [], _, total, db => (Except.ok total, db)
  | batch :: rest, batchIdx, total, db =>
    match _process_batch_with_retry db batch with
    | (Except.error e, db1) => (Except.error e, db1)
    | (Except.ok n, db1) =>
      match (if batchIdx % COMMIT_INTERVAL = 0 then dbCommit db1 else (Except.ok (), db1)) with
      | (Except.error e, db2) => (Except.error e, db2)
      | (Except.ok _, db2) => insertLoop rest (batchIdx + BATCH_SIZE) (total + n) db2

/-- The protected body of `insert_job_applications` (logic.py lines
32-54): dedup, batch loop, final commit, and the returned pair
`(inserted, skipped)` with `skipped = len(valid_apps) - inserted`. -/
def insertBody (db : DbState) (applications : List AppEntry) (u : String) :
    Except Unit (Nat × Nat) × DbState :=
  let valid := _process_entries applications u
  match insertLoop (chunksOf valid) 0 0 db with
  | (Except.error e, db1) => (Except.error e, db1)
  | (Except.ok total, db1) =>
    match dbCommit db1 with
    | (Except.error e, db2) => (Except.error e, db2)
    | (Except.ok _, db2) => (Except.ok (total, valid.length - total), db2)

/-- Embedding of `insert_job_applications` (logic.py lines 22-59): an
empty input returns `(0, 0)` at once; any exception escaping the body is
caught, the transaction rolled back and `(0, len(applications))`
returned. -/
def insert_job_applications (db : DbState) (applications : List AppEntry) (u : String) :
    (Nat × Nat) × DbState :=
  if applications.isEmpty then ((0, 0), db)
  else
    match insertBody db applications u with
    | (Except.ok res, db1) => (res, db1)
    | (Except.error _, db1) => ((0, applications.length), dbRollback db1)

/-! ## Storage reconciliation never writes a dominated sentinel (claim C3) -/

/-- An empty fault script makes `popFault` a no-op returning no fault. -/
theorem popFault_nil (db : DbState) (hf : db.faults = []) : popFault db = (false, db) := by
  cases db with
  | mk c p f =>
    cases hf
    rfl

/-- Rows accumulated by `insertRows` come from the prior pending rows or
from the inserted batch. -/
theorem insertRows_mem (tbl : List Row) :
    ∀ (rs pending : List Row) (r : Row), r ∈ (insertRows tbl pending rs).2 →
      r ∈ pending ∨ r ∈ rs := by
  intro rs
  induction rs with
  | nil => intro pending r hr; exact Or.inl hr
  | cons b rs ih =>
    intro pending r hr
    rw [insertRows] at hr
    by_cases hc : (tbl ++ pending).contains b
    · rw [if_pos hc] at hr
      rcases ih pending r hr with h | h
      · exact Or.inl h
      · exact Or.inr (List.mem_cons_of_mem _ h)
    · rw [if_neg hc] at hr
      rcases ih (pending ++ [b]) r hr with h | h
      · rcases List.mem_append.1 h with h2 | h2
        · exact Or.inl h2
        · exact Or.inr (List.mem_cons.2 (Or.inl (List.mem_singleton.1 h2)))
      · exact Or.inr (List.mem_cons_of_mem _ h)

/-- One retry attempt that succeeds settles the retry wrapper. -/
theorem retryCall_first_ok (f : DbState → Except Unit Nat × DbState) (db db1 : DbState) (n : Nat)
    (h : f db = (Except.ok n, db1)) : retryCall f MAX_RETRIES db = (Except.ok n, db1) := by
  have hstep : retryCall f MAX_RETRIES db =
      match f db with
      | (Except.ok v, d1) => (Except.ok v, d1)
      | (Except.error _, d1) => retryCall f 2 d1 := rfl
  rw [hstep, h]

/-- C3: a batch entry with the sentinel title whose company already has a
known-title row in storage for the same user is dropped before the
insert: every row visible after the batch either existed before or is not
a sentinel row for that company. -/
theorem c3_conflicting_sentinel_never_written (db : DbState) (batch : List Row) (e w : Row)
    (hf : db.faults = [])
    (hsame : ∀ b ∈ batch, b.user_email = e.user_email)
    (he : e ∈ batch) (het : e.job_title = UNKNOWN)
    (hw : w ∈ visible db) (hwu : w.user_email = e.user_email)
    (hwc : w.company = e.company) (hwt : w.job_title ≠ UNKNOWN) :
    ∀ r : Row, r ∈ visible (_process_batch_with_retry db batch).2 →
      r ∈ visible db ∨ ¬(r.company = e.company ∧ r.job_title = UNKNOWN) := by
  have heu : e ∈ batch.filter (fun b => b.job_title == UNKNOWN) :=
    List.mem_filter.2 ⟨he, by simp [het]⟩
  cases hu : batch.filter (fun b => b.job_title == UNKNOWN) with
  | nil =>
    rw [hu] at heu
    exact absurd heu (by simp)
  | cons u0 rest =>
    have hu0mem : u0 ∈ batch := (List.mem_filter.1 (hu ▸ List.mem_cons_self u0 rest)).1
    have hu0user : u0.user_email = e.user_email := hsame u0 hu0mem
    -- the SELECT result contains the company of e
    have hex : e.company ∈ knownCompanies db u0.user_email ((u0 :: rest).map (fun b => b.company)) := by
      rw [knownCompanies]
      refine List.mem_filterMap.2 ⟨w, hw, ?_⟩
      rw [if_pos ?_, hwc]
      refine ⟨by rw [hwu, hu0user], ?_, hwt⟩
      rw [hwc]
      exact List.mem_map.2 ⟨e, hu ▸ heu, rfl⟩
    -- evaluate one attempt of the batch processor
    have hsel : dbSelectKnown db u0.user_email ((u0 :: rest).map (fun b => b.company)) =
        (Except.ok (knownCompanies db u0.user_email ((u0 :: rest).map (fun b => b.company))), db) := by
      rw [dbSelectKnown, popFault_nil db hf]
      rfl
    have hfilter : _filter_conflicting_unknowns db (u0 :: rest) =
        (Except.ok ((u0 :: rest).filter (fun b =>
          !((knownCompanies db u0.user_email ((u0 :: rest).map (fun b2 => b2.company))).contains
            b.company))), db) := by
      rw [_filter_conflicting_unknowns, hsel]
    have hne : (batch.filter (fun b => b.job_title == UNKNOWN)).isEmpty = false := by
      rw [hu]
      rfl
    have honce : processBatchOnce db batch =
        (let known := batch.filter (fun b => !(b.job_title == UNKNOWN))
         let unknown2 := (u0 :: rest).filter (fun b =>
           !((knownCompanies db u0.user_email ((u0 :: rest).map (fun b2 => b2.company))).contains
             b.company))
         let finalBatch := known ++ unknown2
         if finalBatch.isEmpty then (Except.ok 0, db)
         else
           let res := _execute_batch_insert db finalBatch
           (Except.ok res.1, res.2)) := by
      rw [processBatchOnce, hne]
      simp only [Bool.false_eq_true, if_false, hu, hfilter]
    intro r hr
    by_cases hrc : r.company = e.company ∧ r.job_title = UNKNOWN
    · left
      -- r cannot come from the inserted batch: known rows are not sentinel,
      -- surviving unknowns are not of company e
      set known := batch.filter (fun b => !(b.job_title == UNKNOWN)) with hknown
      set unknown2 := (u0 :: rest).filter (fun b =>
        !((knownCompanies db u0.user_email ((u0 :: rest).map (fun b2 => b2.company))).contains
          b.company)) with hunknown2
      have hgood : ∀ b ∈ known ++ unknown2, ¬(b.company = e.company ∧ b.job_title = UNKNOWN) := by
        intro b hb
        rcases List.mem_append.1 hb with h1 | h1
        · intro hcon
          have := (List.mem_filter.1 h1).2
          rw [hcon.2] at this
          simp [UNKNOWN] at this
        · intro hcon
          have hnotin := (List.mem_filter.1 h1).2
          rw [hcon.1] at hnotin
          rw [List.contains, List.elem_eq_true_of_mem hex] at hnotin
          exact Bool.noConfusion hnotin
      cases hempty : (known ++ unknown2).isEmpty with
      | true =>
        have hdone : processBatchOnce db batch = (Except.ok 0, db) := by
          rw [honce]
          simp only [hempty, if_true]
        have hret := retryCall_first_ok (fun d => processBatchOnce d batch) db db 0 hdone
        rw [_process_batch_with_retry] at hr
        rw [hret] at hr
        exact hr
      | false =>
        have hdone : processBatchOnce db batch =
            (Except.ok (_execute_batch_insert db (known ++ unknown2)).1,
              (_execute_batch_insert db (known ++ unknown2)).2) := by
          rw [honce]
          simp only [hempty, Bool.false_eq_true, if_false]
        have hret := retryCall_first_ok (fun d => processBatchOnce d batch) db _ _ hdone
        rw [_process_batch_with_retry] at hr
        rw [hret] at hr
        have hexec : _execute_batch_insert db (known ++ unknown2) =
            ((insertRows db.committed db.pending (known ++ unknown2)).1,
              { db with pending := (insertRows db.committed db.pending (known ++ unknown2)).2 }) := by
          rw [_execute_batch_insert, dbInsert, popFault_nil db hf]
          rfl
        rw [hexec] at hr
        rcases List.mem_append.1 hr with h1 | h1
        · exact List.mem_append.2 (Or.inl h1)
        · rcases insertRows_mem db.committed (known ++ unknown2) db.pending r h1 with h2 | h2
          · exact List.mem_append.2 (Or.inr h2)
          · exact absurd hrc (hgood r h2)
    · exact Or.inr hrc

/-- C3 witness data: storage holds a known title for acme. -/
def c3db : DbState := ⟨[⟨"u", "acme", "dev"⟩], [], []⟩

/-- C3 witness data: the batch resubmits acme with the sentinel title. -/
def c3batch : List Row := [⟨"u", "acme", UNKNOWN⟩]

/-- C3 witness: the dominated sentinel row is nowhere in storage after the
batch. -/
theorem c3_witness :
    (⟨"u", "acme", UNKNOWN⟩ : Row) ∉ visible (_process_batch_with_retry c3db c3batch).2 := by
  intro hmem
  have happ := c3_conflicting_sentinel_never_written c3db c3batch
    ⟨"u", "acme", UNKNOWN⟩ ⟨"u", "acme", "dev"⟩ rfl (by decide) (by decide) rfl (by decide)
    rfl rfl (by decide)
  rcases happ ⟨"u", "acme", UNKNOWN⟩ hmem with h | h
  · exact absurd h (by decide)
  · exact h ⟨rfl, rfl⟩

/-! ## Counting behaviour of insert_job_applications (claims C4 and C10) -/

/-- Lemma: `insertRows` grows the pending rows by exactly the returned count, and
never writes more rows than it was given. -/
theorem insertRows_count (tbl : List Row) :
    ∀ (rs pending : List Row),
      (insertRows tbl pending rs).2.length = pending.length + (insertRows tbl pending rs).1 ∧
        (insertRows tbl pending rs).1 ≤ rs.length := by
  intro rs
  induction rs with
  | nil => intro pending; exact ⟨by simp [insertRows], by simp [insertRows]⟩
  | cons b rs ih =>
    intro pending
    rw [insertRows]
    by_cases hc : (tbl ++ pending).contains b
    · rw [if_pos hc]
      refine ⟨(ih pending).1, Nat.le_succ_of_le (ih pending).2⟩
    · rw [if_neg hc]
      have h1 := (ih (pending ++ [b])).1
      have h2 := (ih (pending ++ [b])).2
      rw [List.length_append, List.length_singleton] at h1
      constructor
      · simp only
        omega
      · simp only [List.length_cons]
        omega

/-- The two title-based filters partition the batch. -/
theorem filter_partition_length (p : Row → Bool) :
    ∀ l : List Row, (l.filter (fun r => !(p r))).length + (l.filter p).length = l.length := by
  intro l
  induction l with
  | nil => rfl
  | cons b l ih =>
    by_cases hb : p b = true
    · rw [List.filter_cons_of_neg (by simp [hb]), List.filter_cons_of_pos (by simp [hb])]
      simp only [List.length_cons]
      omega
    · rw [List.filter_cons_of_pos (by simp [hb]), List.filter_cons_of_neg (by simp [hb])]
      simp only [List.length_cons]
      omega

/-- A successful commit leaves the visible rows unchanged and retains an
empty fault script. -/
theorem dbCommit_nofault (db : DbState) (hf : db.faults = []) :
    dbCommit db = (Except.ok (), ⟨db.committed ++ db.pending, [], db.faults⟩) := by
  rw [dbCommit, popFault_nil db hf]
  rfl

/-- A commit that returns successfully has flushed the pending rows. -/
theorem dbCommit_ok_pending (db dc : DbState) (x : Unit) (h : dbCommit db = (Except.ok x, dc)) :
    dc.pending = [] := by
  rw [dbCommit] at h
  rcases hp : popFault db with ⟨f, d1⟩
  rw [hp] at h
  cases f with
  | true => exact absurd (congrArg Prod.fst h) (by simp)
  | false =>
    simp only [Bool.false_eq_true, if_false] at h
    have h2 := congrArg Prod.snd h
    simp only at h2
    rw [← h2]

/-- One fault-free attempt of the batch processor: it succeeds, keeps the
committed rows and the empty fault script, grows pending by the returned
count, and never reports more than the batch size. -/
theorem processBatchOnce_nofault (db : DbState) (batch : List Row) (hf : db.faults = []) :
    ∃ n db1, processBatchOnce db batch = (Except.ok n, db1) ∧ db1.faults = [] ∧
      db1.committed = db.committed ∧ db1.pending.length = db.pending.length + n ∧
      n ≤ batch.length := by
  have hfinal : ∀ unknown2 : List Row,
      unknown2.length ≤ (batch.filter (fun r => r.job_title == UNKNOWN)).length →
      ∃ n db1,
        ((let finalBatch := batch.filter (fun r => !(r.job_title == UNKNOWN)) ++ unknown2
          if finalBatch.isEmpty then (Except.ok 0, db)
          else
            let res := _execute_batch_insert db finalBatch
            (Except.ok res.1, res.2)) : Except Unit Nat × DbState) = (Except.ok n, db1) ∧ db1.faults = [] ∧
        db1.committed = db.committed ∧ db1.pending.length = db.pending.length + n ∧
        n ≤ batch.length := by
    intro unknown2 hlen
    by_cases hempty : (batch.filter (fun r => !(r.job_title == UNKNOWN)) ++ unknown2).isEmpty = true
    · refine ⟨0, db, ?_, hf, rfl, by omega, Nat.zero_le _⟩
      simp only [hempty, if_true]
    · have hexec : _execute_batch_insert db (batch.filter (fun r => !(r.job_title == UNKNOWN)) ++ unknown2) =
          ((insertRows db.committed db.pending (batch.filter (fun r => !(r.job_title == UNKNOWN)) ++ unknown2)).1,
            { db with pending := (insertRows db.committed db.pending (batch.filter (fun r => !(r.job_title == UNKNOWN)) ++ unknown2)).2 }) := by
        rw [_execute_batch_insert, dbInsert, popFault_nil db hf]
        rfl
      refine ⟨(insertRows db.committed db.pending
          (batch.filter (fun r => !(r.job_title == UNKNOWN)) ++ unknown2)).1,
        { db with pending := (insertRows db.committed db.pending
          (batch.filter (fun r => !(r.job_title == UNKNOWN)) ++ unknown2)).2 },
        ?_, hf, rfl, ?_, ?_⟩
      · simp only [hempty, Bool.false_eq_true, if_false, hexec]
      · exact (insertRows_count db.committed _ db.pending).1
      · have hle := (insertRows_count db.committed
          (batch.filter (fun r => !(r.job_title == UNKNOWN)) ++ unknown2) db.pending).2
        have hpart := filter_partition_length (fun r => r.job_title == UNKNOWN) batch
        rw [List.length_append] at hle
        omega
  by_cases hune : (batch.filter (fun r => r.job_title == UNKNOWN)).isEmpty = true
  · have h0 := hfinal (batch.filter (fun r => r.job_title == UNKNOWN)) (Nat.le_refl _)
    rcases h0 with ⟨n, db1, heq, rest⟩
    refine ⟨n, db1, ?_, rest⟩
    rw [processBatchOnce, hune]
    simp only [if_true]
    exact heq
  · cases hu : batch.filter (fun r => r.job_title == UNKNOWN) with
    | nil => rw [hu] at hune; exact absurd rfl hune
    | cons u0 rest =>
      have hsel : dbSelectKnown db u0.user_email ((u0 :: rest).map (fun b => b.company)) =
          (Except.ok (knownCompanies db u0.user_email ((u0 :: rest).map (fun b => b.company))), db) := by
        rw [dbSelectKnown, popFault_nil db hf]
        rfl
      have hfilt : _filter_conflicting_unknowns db (u0 :: rest) =
          (Except.ok ((u0 :: rest).filter (fun b =>
            !((knownCompanies db u0.user_email ((u0 :: rest).map (fun b2 => b2.company))).contains
              b.company))), db) := by
        rw [_filter_conflicting_unknowns, hsel]
      have hlen : ((u0 :: rest).filter (fun b =>
          !((knownCompanies db u0.user_email ((u0 :: rest).map (fun b2 => b2.company))).contains
            b.company))).length ≤ (batch.filter (fun r => r.job_title == UNKNOWN)).length := by
        rw [hu]
        exact List.length_filter_le _ _
      rcases hfinal _ hlen with ⟨n, db1, heq, rest2⟩
      refine ⟨n, db1, ?_, rest2⟩
      rw [processBatchOnce, if_neg hune, hu, hfilt]
      exact heq

/-- The chunks of a list cover it exactly when the fuel suffices. -/
theorem chunkFuel_sum : ∀ (fuel : Nat) (l : List Row), l.length ≤ fuel →
    ((chunkFuel fuel l).map List.length).sum = l.length := by
  intro fuel
  induction fuel with
  | zero =>
    intro l hl
    have : l = [] := List.eq_nil_of_length_eq_zero (Nat.le_zero.1 hl)
    rw [this]
    rfl
  | succ fuel ih =>
    intro l hl
    match l with
    | [] => rfl
    | x :: xs =>
      rw [chunkFuel, List.map_cons, List.sum_cons]
      have hdrop : ((x :: xs).drop BATCH_SIZE).length ≤ fuel := by
        rw [List.length_drop]
        simp only [List.length_cons] at hl ⊢
        have : 0 < BATCH_SIZE := by decide
        omega
      rw [ih _ hdrop, List.length_take, List.length_drop]
      simp only [List.length_cons]
      have : 0 < BATCH_SIZE := by decide
      omega

/-- Fault-free run of the whole batch loop: it succeeds, the visible rows
grow by exactly the returned total, and the total is bounded by the sum of
the chunk sizes. -/
theorem insertLoop_nofault : ∀ (chunks : List (List Row)) (idx total : Nat) (db : DbState),
    db.faults = [] →
    ∃ n db1, insertLoop chunks idx total db = (Except.ok (total + n), db1) ∧ db1.faults = [] ∧
      (visible db1).length = (visible db).length + n ∧
      n ≤ (chunks.map List.length).sum := by
  intro chunks
  induction chunks with
  | nil =>
    intro idx total db hf
    exact ⟨0, db, by rw [insertLoop, Nat.add_zero], hf, by omega, Nat.le_refl 0⟩
  | cons batch rest ih =>
    intro idx total db hf
    rcases processBatchOnce_nofault db batch hf with ⟨n1, db1, honce, hf1, hcom1, hpen1, hb1⟩
    have hret := retryCall_first_ok (fun d => processBatchOnce d batch) db db1 n1 honce
    have hcommit : ∀ dbx : DbState, dbx.faults = [] →
        ∃ db2 : DbState, (if idx % COMMIT_INTERVAL = 0 then dbCommit dbx
            else (Except.ok (), dbx)) = (Except.ok (), db2) ∧ db2.faults = [] ∧
          (visible db2).length = (visible dbx).length := by
      intro dbx hfx
      by_cases hidx : idx % COMMIT_INTERVAL = 0
      · refine ⟨⟨dbx.committed ++ dbx.pending, [], dbx.faults⟩, ?_, hfx, ?_⟩
        · rw [if_pos hidx, dbCommit_nofault dbx hfx]
        · rw [visible, visible]
          simp
      · exact ⟨dbx, by rw [if_neg hidx], hfx, rfl⟩
    rcases hcommit db1 hf1 with ⟨db2, hc2, hf2, hv2⟩
    rcases ih (idx + BATCH_SIZE) (total + n1) db2 hf2 with ⟨n2, db3, hloop, hf3, hv3, hb2⟩
    refine ⟨n1 + n2, db3, ?_, hf3, ?_, ?_⟩
    · simp only [insertLoop, _process_batch_with_retry, hret, hc2, hloop, Nat.add_assoc]
    · have hv1 : (visible db1).length = (visible db).length + n1 := by
        rw [visible, visible, List.length_append, List.length_append, hcom1, hpen1]
        omega
      rw [hv3, hv2, hv1]
      omega
    · rw [List.map_cons, List.sum_cons]
      omega

/-- Fault-free run of the protected body: it returns
`(inserted, valid - inserted)` with `inserted` the exact growth of the
visible rows, bounded by the number of deduplicated entries. -/
theorem insertBody_nofault (db : DbState) (apps : List AppEntry) (u : String)
    (hf : db.faults = []) :
    ∃ n db2, insertBody db apps u =
        (Except.ok (n, (_process_entries apps u).length - n), db2) ∧
      n ≤ (_process_entries apps u).length ∧
      (visible db2).length = (visible db).length + n := by
  rcases insertLoop_nofault (chunksOf (_process_entries apps u)) 0 0 db hf with
    ⟨n, db1, hloop, hf1, hv1, hbound⟩
  rw [chunksOf, chunkFuel_sum _ _ (Nat.le_refl _)] at hbound
  refine ⟨n, ⟨db1.committed ++ db1.pending, [], db1.faults⟩, ?_, hbound, ?_⟩
  · simp only [insertBody, hloop, dbCommit_nofault db1 hf1, Nat.zero_add]
  · simp only [visible, List.length_append, List.append_nil] at hv1 ⊢
    omega

/-- C4 (amended): with a fault-free storage session,
`insert_job_applications` returns `(inserted, skipped)` where `inserted`
is exactly the number of rows written and `inserted + skipped` equals the
number of deduplicated entries with a company — not the raw submission
count: records dropped for lacking a company or merged by intra-batch
dedup are not counted. -/
theorem c4_insert_counts (db : DbState) (apps : List AppEntry) (u : String)
    (hf : db.faults = []) :
    (insert_job_applications db apps u).1.1 + (insert_job_applications db apps u).1.2 =
        (_process_entries apps u).length ∧
      (visible (insert_job_applications db apps u).2).length =
        (visible db).length + (insert_job_applications db apps u).1.1 := by
  by_cases hemp : apps.isEmpty = true
  · have happs : apps = [] := by
      cases apps with
      | nil => rfl
      | cons a l => exact absurd hemp (by simp)
    rw [insert_job_applications, if_pos hemp, happs]
    exact ⟨rfl, by simp⟩
  · rcases insertBody_nofault db apps u hf with ⟨n, db2, hbody, hbound, hv⟩
    rw [insert_job_applications, if_neg hemp, hbody]
    constructor
    · simp only
      omega
    · simp only
      exact hv

/-- C4: the claim that `inserted + skipped` equals the number of submitted
candidate records is false: a single record without a company is dropped
by dedup and counted nowhere, so the function returns `(0, 0)` for one
submitted record. -/
theorem c4_counterexample :
    (insert_job_applications ⟨[], [], []⟩ [⟨"", "Engineer"⟩] "u").1 = (0, 0) ∧
      ¬((insert_job_applications ⟨[], [], []⟩ [⟨"", "Engineer"⟩] "u").1.1 +
          (insert_job_applications ⟨[], [], []⟩ [⟨"", "Engineer"⟩] "u").1.2 =
        ([(⟨"", "Engineer"⟩ : AppEntry)] : List AppEntry).length) := by
  refine ⟨?_, ?_⟩ <;> decide

/-- C4 witness: three submissions dedup to one valid entry; the counts sum
to one and one row is written. -/
theorem c4_witness :
    (⟨[], [], []⟩ : DbState).faults = [] ∧
      ((insert_job_applications ⟨[], [], []⟩
          [⟨"Acme", "Dev"⟩, ⟨"acme", ""⟩, ⟨"", "QA"⟩] "u").1.1 +
        (insert_job_applications ⟨[], [], []⟩
          [⟨"Acme", "Dev"⟩, ⟨"acme", ""⟩, ⟨"", "QA"⟩] "u").1.2 =
        (_process_entries [⟨"Acme", "Dev"⟩, ⟨"acme", ""⟩, ⟨"", "QA"⟩] "u").length) :=
  ⟨rfl, (c4_insert_counts ⟨[], [], []⟩ [⟨"Acme", "Dev"⟩, ⟨"acme", ""⟩, ⟨"", "QA"⟩] "u" rfl).1⟩

/-- C10 (amended): `insert_job_applications` never propagates an
exception.  An empty input returns `(0, 0)` without touching storage.  If
the protected body raises (dedup-conflict query after its retries, or a
commit), the transaction is rolled back and `(0, len(applications))` is
returned, with no pending rows left.  A successful body leaves no pending
rows either (the final commit flushed them).  A failed batch write,
however, is swallowed inside the insert helper and does not trigger this
path — see the counterexample. -/
theorem c10_insert_error_handling (db : DbState) (apps : List AppEntry) (u : String) :
    (apps.isEmpty = true → insert_job_applications db apps u = ((0, 0), db)) ∧
    (∀ db1 : DbState, apps.isEmpty = false →
      insertBody db apps u = (Except.error (), db1) →
      insert_job_applications db apps u = ((0, apps.length), dbRollback db1) ∧
        (dbRollback db1).pending = []) ∧
    (∀ (res : Nat × Nat) (db1 : DbState), apps.isEmpty = false →
      insertBody db apps u = (Except.ok res, db1) →
      insert_job_applications db apps u = (res, db1) ∧ db1.pending = []) := by
  refine ⟨?_, ?_, ?_⟩
  · intro hemp
    rw [insert_job_applications, if_pos hemp]
  · intro db1 hemp herr
    constructor
    · rw [insert_job_applications, if_neg (by rw [hemp]; exact Bool.noConfusion), herr]
    · rfl
  · intro res db1 hemp hok
    constructor
    · rw [insert_job_applications, if_neg (by rw [hemp]; exact Bool.noConfusion), hok]
    · -- a successful body ends in a successful commit, which clears pending
      rw [insertBody] at hok
      rcases hloop : insertLoop (chunksOf (_process_entries apps u)) 0 0 db with ⟨rl, dl⟩
      simp only [hloop] at hok
      cases rl with
      | error e => exact absurd (congrArg Prod.fst hok) (by simp)
      | ok total =>
        rcases hc : dbCommit dl with ⟨rc, dc⟩
        simp only [hc] at hok
        cases rc with
        | error e => exact absurd (congrArg Prod.fst hok) (by simp)
        | ok x =>
          have hdb1 : db1 = dc := by
            have := congrArg Prod.snd hok
            simpa using this.symm
          rw [hdb1]
          exact dbCommit_ok_pending dl dc x hc

/-- A run on which the insert statement itself fails. -/
def c10faultDb : DbState := ⟨[], [], [true]⟩

/-- Two candidate applications that deduplicate to one entry. -/
def c10apps : List AppEntry := [⟨"Acme", "Dev"⟩, ⟨"ACME ", "dev"⟩]

/-- C10: the claim that a failed batch write makes the function return
`(0, len(applications))` is false: the write failure is swallowed inside
`_execute_batch_insert` (chunk rolled back, counted as skipped) and the
function returns `(0, 1)` for the two submitted records, not `(0, 2)`. -/
theorem c10_counterexample :
    (insert_job_applications c10faultDb c10apps "u").1 = (0, 1) ∧
      (insert_job_applications c10faultDb c10apps "u").1 ≠ (0, c10apps.length) := by
  refine ⟨?_, ?_⟩ <;> decide

/-- C10 witness: the empty-input and body-failure branches at concrete
inputs (three faults exhaust the retries of the conflict query). -/
theorem c10_witness :
    insert_job_applications ⟨[], [], [true]⟩ [] "u" = ((0, 0), ⟨[], [], [true]⟩) ∧
      insert_job_applications ⟨[], [], [true, true, true]⟩ [⟨"Acme", ""⟩] "u" =
        ((0, 1), dbRollback ⟨[], [], []⟩) :=
  ⟨(c10_insert_error_handling ⟨[], [], [true]⟩ [] "u").1 rfl,
    ((c10_insert_error_handling ⟨[], [], [true, true, true]⟩ [⟨"Acme", ""⟩] "u").2.1
      ⟨[], [], []⟩ rfl rfl).1⟩

/-! ## scheduler.py: bounded concurrency (claim C7)

`scheduled_email_fetch` (scheduler.py lines 30-43) runs one
`limited_worker` per user; each worker holds one permit of
`asyncio.Semaphore(max_concurrent_users)` for the whole duration of
`async_process_user_emails`, and `asyncio.gather` returns only when every
worker has resolved.  The semaphore and the workers are modelled as a
small-step transition system over the cooperative scheduler: a waiting
task may start when a permit is free, a running task may finish and
release its permit, and the cycle can complete only when all tasks are
done. -/

/-- Status of one per-user pipeline task. -/
inductive TaskStatus where
  | waiting
  | running
  | done
deriving DecidableEq, Repr

/-- Scheduler state: free permits, per-user task statuses, and whether
`gather` has returned. -/
structure SchedState where
  permits : Nat
  tasks : List TaskStatus
  completed : Bool
deriving DecidableEq, Repr

/-- Initial state of a cycle: all permits free, every user waiting. -/
def initState (n users : Nat) : SchedState :=
  ⟨n, List.replicate users TaskStatus.waiting, false⟩

/-- Number of pipelines executing simultaneously. -/
def runningCount (s : SchedState) : Nat :=
  s.tasks.countP (fun t => t == TaskStatus.running)

/-- All pipelines have resolved. -/
def allDone (s : SchedState) : Bool :=
  s.tasks.all (fun t => t == TaskStatus.done)

/-- One scheduler step: acquire the semaphore, finish a pipeline and
release, or return from `gather` once everything is done. -/
inductive SchedStep : SchedState → SchedState → Prop where
  | acquire (s : SchedState) (i : Nat) (h : s.tasks.get? i = some TaskStatus.waiting)
      (hp : 0 < s.permits) (hc : s.completed = false) :
      SchedStep s ⟨s.permits - 1, s.tasks.set i TaskStatus.running, false⟩
  | finish (s : SchedState) (i : Nat) (h : s.tasks.get? i = some TaskStatus.running)
      (hc : s.completed = false) :
      SchedStep s ⟨s.permits + 1, s.tasks.set i TaskStatus.done, false⟩
  | complete (s : SchedState) (h : allDone s = true) (hc : s.completed = false) :
      SchedStep s ⟨s.permits, s.tasks, true⟩

/-- States reachable in a cycle with `max_concurrent_users = n` over
`users` users. -/
def Reachable (n users : Nat) (s : SchedState) : Prop :=
  Relation.ReflTransGen SchedStep (initState n users) s

/-- Replacing one known element shifts `countP` by the difference of the
two elements. -/
theorem countP_set (p : TaskStatus → Bool) :
    ∀ (l : List TaskStatus) (i : Nat) (a b : TaskStatus), l.get? i = some a →
      (l.set i b).countP p + (if p a then 1 else 0) =
        l.countP p + (if p b then 1 else 0) := by
  intro l
  induction l with
  | nil => intro i a b h; simp at h
  | cons x xs ih =>
    intro i a b h
    cases i with
    | zero =>
      rw [List.get?_cons_zero] at h
      cases h
      rw [List.set_cons_zero, List.countP_cons, List.countP_cons]
      omega
    | succ i =>
      rw [List.get?_cons_succ] at h
      rw [List.set_cons_succ, List.countP_cons, List.countP_cons]
      have := ih i a b h
      omega

/-- The semaphore invariant: free permits plus running pipelines equal the
configured limit, and a completed cycle has every pipeline resolved. -/
theorem sched_invariant (n users : Nat) (s : SchedState) (h : Reachable n users s) :
    runningCount s + s.permits = n ∧ (s.completed = true → allDone s = true) := by
  induction h with
  | refl =>
    constructor
    · rw [runningCount, initState]
      simp only [Nat.zero_add]
      rw [show (List.replicate users TaskStatus.waiting).countP
          (fun t => t == TaskStatus.running) = 0 from ?_]
      · omega
      · rw [List.countP_eq_zero]
        intro t ht
        rw [List.eq_of_mem_replicate ht]
        decide
    · intro hcon
      exact absurd hcon (by rw [initState]; simp)
  | @tail b c hsteps hstep ih =>
    cases hstep with
    | acquire i hget hp hc =>
      constructor
      · have hcount := countP_set (fun t => t == TaskStatus.running) b.tasks i
          TaskStatus.waiting TaskStatus.running hget
        rw [show (if ((TaskStatus.waiting == TaskStatus.running) = true) then 1 else 0) = 0
            from rfl,
          show (if ((TaskStatus.running == TaskStatus.running) = true) then 1 else 0) = 1
            from rfl] at hcount
        rw [runningCount] at ih ⊢
        simp only at hcount ⊢
        omega
      · intro hcon
        exact absurd hcon (by simp)
    | finish i hget hc =>
      constructor
      · have hcount := countP_set (fun t => t == TaskStatus.running) b.tasks i
          TaskStatus.running TaskStatus.done hget
        rw [show (if ((TaskStatus.running == TaskStatus.running) = true) then 1 else 0) = 1
            from rfl,
          show (if ((TaskStatus.done == TaskStatus.running) = true) then 1 else 0) = 0
            from rfl] at hcount
        rw [runningCount] at ih ⊢
        simp only at hcount ⊢
        omega
      · intro hcon
        exact absurd hcon (by simp)
    | complete hd hc =>
      exact ⟨ih.1, fun _ => hd⟩

/-- C7: in every reachable state of a cycle with concurrency limit `n`, at
most `n` per-user pipelines run simultaneously, and the cycle is complete
only once every pipeline has resolved. -/
theorem c7_bounded_concurrency (n users : Nat) (s : SchedState) (h : Reachable n users s) :
    runningCount s ≤ n ∧ (s.completed = true → allDone s = true) := by
  have hinv := sched_invariant n users s h
  exact ⟨by omega, hinv.2⟩

/-- C7 witness: limit 5 with 7 users, after one pipeline has started. -/
theorem c7_witness :
    Reachable 5 7 ⟨4, (List.replicate 7 TaskStatus.waiting).set 0 TaskStatus.running, false⟩ ∧
      runningCount ⟨4, (List.replicate 7 TaskStatus.waiting).set 0 TaskStatus.running, false⟩ ≤ 5 := by
  have hreach : Reachable 5 7
      ⟨4, (List.replicate 7 TaskStatus.waiting).set 0 TaskStatus.running, false⟩ :=
    Relation.ReflTransGen.single
      (SchedStep.acquire (initState 5 7) 0 rfl (by decide) rfl)
  exact ⟨hreach, (c7_bounded_concurrency 5 7 _ hreach).1⟩

/-! ## scheduler.py: per-user fault isolation (claim C8)

`async_process_user_emails` (scheduler.py lines 15-27) wraps the whole
per-user pipeline in try/except which only logs; the body (Gmail service,
fetch, insert) is abstracted as an oracle from the user to either counts
or a raised exception. -/

/-- Outcome of one user in a cycle. -/
inductive UserResult where
  | processed : Nat × Nat → UserResult
  | logged
deriving DecidableEq, Repr

/-- Embedding of `async_process_user_emails`: a raised exception is
caught and logged, never re-raised. -/
def async_process_user_emails (pipeline : String → Except Unit (Nat × Nat))
    (u : String) : UserResult :=
  match pipeline u with
  | Except.ok c => UserResult.processed c
  | Except.error _ => UserResult.logged

/-- The per-user results of one `scheduled_email_fetch` cycle. -/
def runCycleResults (pipeline : String → Except Unit (Nat × Nat))
    (users : List String) : List UserResult :=
  users.map (async_process_user_emails pipeline)

/-- C8: every user of a cycle gets a result (an exception in one pipeline
never aborts the cycle: each result is either processed counts or a
caught-and-logged failure), and the result of a user depends only on that
user's own pipeline behaviour — failures of other users cannot alter it.
-/
theorem c8_fault_isolation (users : List String)
    (p1 p2 : String → Except Unit (Nat × Nat)) :
    (runCycleResults p1 users).length = users.length ∧
    (∀ u : String, (∃ c, async_process_user_emails p1 u = UserResult.processed c) ∨
      async_process_user_emails p1 u = UserResult.logged) ∧
    (∀ (i : Nat) (hu : i < users.length),
      p1 (users.get ⟨i, hu⟩) = p2 (users.get ⟨i, hu⟩) →
      (runCycleResults p1 users).get? i = (runCycleResults p2 users).get? i) := by
  refine ⟨by rw [runCycleResults, List.length_map], ?_, ?_⟩
  · intro u
    rw [async_process_user_emails]
    cases pipeline1 : p1 u with
    | ok c => exact Or.inl ⟨c, rfl⟩
    | error e => exact Or.inr rfl
  · intro i hi heq
    rw [runCycleResults, runCycleResults, List.get?_map, List.get?_map, List.get?_eq_get hi]
    show some (async_process_user_emails p1 (users.get ⟨i, hi⟩)) =
      some (async_process_user_emails p2 (users.get ⟨i, hi⟩))
    rw [async_process_user_emails, async_process_user_emails, heq]

/-- A pipeline oracle that fails for one user and succeeds for others. -/
def mixedPipeline : String → Except Unit (Nat × Nat) :=
  fun u => if u = "bad" then Except.error () else Except.ok (1, 0)

/-- C8 witness: with one failing user among three, all three users get a
result and the good user is unaffected by the failing oracle. -/
theorem c8_witness :
    (runCycleResults mixedPipeline ["alice", "bad", "carol"]).length = 3 ∧
      (runCycleResults mixedPipeline ["alice", "bad", "carol"]).get? 0 =
        (runCycleResults (fun _ => Except.ok (1, 0)) ["alice", "bad", "carol"]).get? 0 :=
  ⟨(c8_fault_isolation ["alice", "bad", "carol"] mixedPipeline
      (fun _ => Except.ok (1, 0))).1,
    (c8_fault_isolation ["alice", "bad", "carol"] mixedPipeline
      (fun _ => Except.ok (1, 0))).2.2 0 (by decide) rfl⟩

end JobTracker

